import Mathlib

/-!
Verification development for the LDPC4QKD error-correction library.

The definitions below are a shallow embedding of the C++ sources
`src/rate_adaptive_code.hpp` (class `RateAdaptiveCode`) and
`src/encoder_advanced.hpp` (class `FixedSizeEncoderQC`).

Modelling conventions:
* bit values are `Bool`; bit vectors are `List Bool`;
* `std::vector<std::vector<idx_t>>` adjacency tables are `List (List Nat)`;
* `std::size_t` subtraction, which wraps modulo `2 ^ 64`, is modelled by `usub64`;
* functions that `throw` are modelled with `Option` / `Except` / a dedicated
  outcome type; out-of-bounds accesses (undefined behaviour in C++) are modelled
  by `List.getD` (reads return a default) and `List.set` (writes out of range are
  dropped);
* the decoder's `double` arithmetic is modelled over `ℚ`, with the transcendental
  functions `tanh`, `log` and the `isnan` test kept abstract as parameters
  (`BPParams`); every statement about the decoder is proved for all values of
  these parameters;
* `const` member functions are additionally wrapped as state-passing calls
  (`CodeState × result`) so that frame properties can be stated.
-/

namespace LDPC4QKD

/-- Bit combination used throughout the C++ code
(`xor_as_bools`: `static_cast<bool>(lhs) != static_cast<bool>(rhs)`). -/
def xor_as_bools (a b : Bool) : Bool := xor a b

/-- The syndrome bit contributed by one matrix row: XOR of the input bits at the
row's variable-node positions, starting from `0`.  This is the inner loop
`out[i] = xor_as_bools(out[i], in[var_node])` of the encoders. -/
def encodeRow (x : List Bool) (row : List Nat) : Bool :=
  row.foldl (fun acc v => xor_as_bools acc (x.getD v false)) false

/-- Sequence of `pos[r].push_back(c)` operations for a list of `(r, c)` pairs,
as used to build adjacency tables. -/
def pushPairs (tbl : List (List Nat)) (es : List (Nat × Nat)) : List (List Nat) :=
  es.foldl (fun acc e => acc.set e.1 ((acc.getD e.1 []).concat e.2)) tbl

/-- Sequence of `out[r] = xor_as_bools(out[r], x[c])` operations for a list of
`(r, c)` pairs, as performed by the scatter-style encoders. -/
def scatterXor (out : List Bool) (x : List Bool) (es : List (Nat × Nat)) : List Bool :=
  es.foldl (fun acc e => acc.set e.1 (xor_as_bools (acc.getD e.1 false) (x.getD e.2 false))) out

/-- Unsigned 64-bit (`std::size_t`) subtraction: `(a - b)` wrapping modulo `2 ^ 64`.
Faithful for `b ≤ 2 ^ 64 + a`, which holds at every call site (`b < 2 ^ 64`). -/
def usub64 (a b : Nat) : Nat := (2 ^ 64 + a - b) % 2 ^ 64

/-- Row index receiving the `1` of QC block row `QCrow` for full-matrix column `col`
with shift exponent `shiftVal`:
`outIdx = (expansion_factor * QCrow) + ((col - shiftVal) % expansion_factor)`
from `FixedSizeEncoderQC`, with the subtraction performed on `std::size_t`. -/
def qcOutIdx (Z QCrow col shiftVal : Nat) : Nat :=
  Z * QCrow + usub64 col shiftVal % Z

/-- Range of CSC value indices stored for exponent-matrix column `qcCol`:
`j = colptr[qcCol] .. colptr[qcCol + 1] - 1`. -/
def colEntryRange (colptr : List Nat) (qcCol : Nat) : List Nat :=
  List.range' (colptr.getD qcCol 0) (colptr.getD (qcCol + 1) 0 - colptr.getD qcCol 0)

/-- Direct QC encoder `FixedSizeEncoderQC::encode_qc`: for every input column,
XOR the input bit into the output bit at `qcOutIdx`.  The output buffer `out0` is
not cleared by the C++ code, so it is taken as an argument. -/
def encode_qc (colptr row_idx values : List Nat) (Z : Nat) (x : List Bool)
    (out0 : List Bool) : List Bool :=
  (List.range x.length).foldl (fun out col =>
    (colEntryRange colptr (col / Z)).foldl (fun out2 j =>
      let outIdx := qcOutIdx Z (row_idx.getD j 0) col (values.getD j 0)
      out2.set outIdx (xor_as_bools (out2.getD outIdx false) (x.getD col false))) out) out0

/-- `FixedSizeEncoderQC::get_pos_varn`: the adjacency of the expanded binary
matrix, built by pushing every column into the row given by `qcOutIdx`. -/
def get_pos_varn (colptr row_idx values : List Nat) (Z nRows nCols : Nat) :
    List (List Nat) :=
  (List.range nCols).foldl (fun pv col =>
    (colEntryRange colptr (col / Z)).foldl (fun pv2 j =>
      let outIdx := qcOutIdx Z (row_idx.getD j 0) col (values.getD j 0)
      pv2.set outIdx ((pv2.getD outIdx []).concat col)) pv) (List.replicate nRows [])

/-- The `(row, column)` incidence list traversed by both QC routines, in
traversal order. -/
def qcEdges (colptr row_idx values : List Nat) (Z nCols : Nat) : List (Nat × Nat) :=
  (List.range nCols).flatMap (fun col =>
    (colEntryRange colptr (col / Z)).map (fun j =>
      (qcOutIdx Z (row_idx.getD j 0) col (values.getD j 0), col)))

/-- Encoding through an adjacency table (the expanded binary matrix): the output
bit for row `i` is the initial buffer bit XORed with the parity of the input
bits at the positions listed in row `i`. -/
def encode_via_pos_varn (pv : List (List Nat)) (x : List Bool) (out0 : List Bool) :
    List Bool :=
  out0.enum.map (fun p => xor_as_bools p.2 (encodeRow x (pv.getD p.1 [])))

/-- Helper for `sortUniq`: drop adjacent duplicates (`std::unique`), `prev` being
the last kept element. -/
def dedupAdjAux (prev : Nat) : List Nat → List Nat
  | [] => []
  | y :: rest => if y = prev then dedupAdjAux prev rest else y :: dedupAdjAux y rest

/-- `std::sort` followed by `std::unique`/`erase` as applied to a combined row in
`recompute_pos_vn_cn`: sort ascending, then drop adjacent duplicates. -/
def sortUniq (l : List Nat) : List Nat :=
  match List.insertionSort (fun a b => a ≤ b) l with
  | [] => []
  | x :: rest => x :: dedupAdjAux x rest

/-- Entries of a list whose index (starting at `i`) is not in `used`, in order.
This is the layout "the entries at indices not in `used`, taken in ascending
index order" of spec section 4.3. -/
def selectIdx {α : Type} (used : List Nat) : Nat → List α → List α
  | _, [] => []
  | i, v :: rest =>
    if i ∈ used then selectIdx used (i + 1) rest else v :: selectIdx used (i + 1) rest

/-- The mark-and-combine loop shared by `encode_with_ra` (sentinel `-1`) and
`recompute_pos_vn_cn` (sentinel `{}`): for each pair, read both positions,
emit `f` of the two values, then overwrite both positions with the sentinel. -/
def markFold {α β : Type} (sent : α) (f : α → α → β) (s0 : List α)
    (ps : List (Nat × Nat)) : List α × List β :=
  ps.foldl (fun acc p =>
    let v := f (acc.1.getD p.1 sent) (acc.1.getD p.2 sent)
    ((acc.1.set p.1 sent).set p.2 sent, acc.2.concat v)) (s0, [])

/-- State of a `RateAdaptiveCode` object (second, rate-adaptive revision of
`rate_adaptive_code.hpp`).  `n_mother_rows`, `n_cols`, `mother_pos_varn` and
`rows_to_combine` are `const` fields; `pos_checkn`, `pos_varn` and `n_ra_rows`
are recomputed on every rate change. -/
structure CodeState where
  n_mother_rows : Nat
  n_cols : Nat
  mother_pos_varn : List (List Nat)
  rows_to_combine : List Nat
  pos_checkn : List (List Nat)
  pos_varn : List (List Nat)
  n_ra_rows : Nat
deriving Repr, DecidableEq

/-- The first `k` rate-adaption pairs
`(rows_to_combine[2 t], rows_to_combine[2 t + 1])`, `t = 0 .. k - 1`. -/
def ratePairs (rtc : List Nat) (k : Nat) : List (Nat × Nat) :=
  (List.range k).map (fun t => (rtc.getD (2 * t) 0, rtc.getD (2 * t + 1) 0))

/-- The row-combination loop of `recompute_pos_vn_cn`: for each pair, build the
sorted duplicate-freed concatenation of the two rows and clear both source rows.
Returns the cleared working copy together with the list of combined rows. -/
def combineLoop (nora : List (List Nat)) (ps : List (Nat × Nat)) :
    List (List Nat) × List (List Nat) :=
  markFold [] (fun a b => sortUniq (a ++ b)) nora ps

/-- The cursor loop that copies the first `m` non-empty remaining rows to the
front of the new `pos_varn` (`while (pos_varn_nora[j].empty()) j++;`).  Slots for
which the C++ cursor would run off the end of the array keep their initial empty
value, hence the padding. -/
def takeNonempty (rows : List (List Nat)) (m : Nat) : List (List Nat) :=
  let kept := (rows.filter (fun r => decide (r ≠ []))).take m
  kept ++ List.replicate (m - kept.length) []

/-- `recompute_pos_checkn` part of `recompute_pos_vn_cn`: transpose `pos_varn`
by pushing each row index onto the lists of its variable nodes, rows in
ascending order. -/
def recompute_pos_checkn (nCols : Nat) (pv : List (List Nat)) : List (List Nat) :=
  pushPairs (List.replicate nCols [])
    (pv.enum.flatMap (fun p => p.2.map (fun vn => (vn, p.1))))

/-- The new `pos_varn` built by `recompute_pos_vn_cn`: for `k = 0` a plain copy
of the mother adjacency, otherwise the non-combined rows (in ascending mother
order, skipping cleared rows) followed by the `k` combined rows. -/
def new_pos_varn (st : CodeState) (k : Nat) : List (List Nat) :=
  if k = 0 then st.mother_pos_varn
  else
    takeNonempty (combineLoop st.mother_pos_varn (ratePairs st.rows_to_combine k)).1
        (st.n_mother_rows - 2 * k)
      ++ (combineLoop st.mother_pos_varn (ratePairs st.rows_to_combine k)).2

/-- `RateAdaptiveCode::recompute_pos_vn_cn`: recompute `pos_varn`, `pos_checkn`
and `n_ra_rows` from the mother matrix for `k` line combinations.  `none` models
the `std::runtime_error` thrown when fewer than `2 k` combination indices are
available. -/
def recompute_pos_vn_cn (st : CodeState) (k : Nat) : Option CodeState :=
  if st.rows_to_combine.length < 2 * k then none
  else some { st with
          pos_varn := new_pos_varn st k
          pos_checkn := recompute_pos_checkn st.n_cols (new_pos_varn st k)
          n_ra_rows := st.n_mother_rows - k }

/-- `RateAdaptiveCode::set_rate`. -/
def set_rate (st : CodeState) (k : Nat) : Option CodeState :=
  recompute_pos_vn_cn st k

/-- `(row, column)` pairs of the CSC storage in the traversal order of
`compute_mother_pos_varn` (columns ascending, entries within a column in
storage order). -/
def cscEdges (colptr row_idx : List Nat) : List (Nat × Nat) :=
  (List.range (colptr.length - 1)).flatMap (fun col =>
    (colEntryRange colptr col).map (fun j => (row_idx.getD j 0, col)))

/-- `*std::max_element(rowIdx.begin(), rowIdx.end())` (for a nonempty list). -/
def maxRowIdx (row_idx : List Nat) : Nat := row_idx.foldl max 0

/-- `RateAdaptiveCode::compute_mother_pos_varn`. -/
def compute_mother_pos_varn (colptr row_idx : List Nat) : List (List Nat) :=
  pushPairs (List.replicate (maxRowIdx row_idx + 1) []) (cscEdges colptr row_idx)

/-- The rate-adaption constructor
`RateAdaptiveCode(colptr, rowIdx, rows_to_combine_rate_adapt, initial_row_combs)`:
reject an odd combination list or an excessive initial rate, then build the
mother adjacency and recompute the current tables. -/
def mkFromCSC (colptr row_idx rtc : List Nat) (k0 : Nat) : Option CodeState :=
  if rtc.length % 2 ≠ 0 then none
  else if rtc.length / 2 < k0 then none
  else
    recompute_pos_vn_cn
      { n_mother_rows := maxRowIdx row_idx + 1
        n_cols := colptr.length - 1
        mother_pos_varn := compute_mother_pos_varn colptr row_idx
        rows_to_combine := rtc
        pos_checkn := []
        pos_varn := []
        n_ra_rows := 0 } k0

/-- Result of one encoder call.  `threw` models a thrown exception,
`silentNoWrite` models the debug-message-and-return path that leaves the output
buffer untouched, `ok` carries the written syndrome. -/
inductive EncodeOutcome where
  | threw : EncodeOutcome
  | silentNoWrite : EncodeOutcome
  | ok : List Bool → EncodeOutcome
deriving Repr, DecidableEq

/-- Mother syndrome: one bit per mother row, XOR of input bits over the row. -/
def mother_syndrome (st : CodeState) (x : List Bool) : List Bool :=
  st.mother_pos_varn.map (fun row => encodeRow x row)

/-- Syndrome at the current rate: one bit per row of the current `pos_varn`. -/
def current_syndrome (st : CodeState) (x : List Bool) : List Bool :=
  st.pos_varn.map (fun row => encodeRow x row)

/-- `RateAdaptiveCode::encode_no_ra`: throws on a wrong input length, otherwise
writes the mother syndrome. -/
def encode_no_ra (st : CodeState) (x : List Bool) : EncodeOutcome :=
  if x.length ≠ st.n_cols then EncodeOutcome.threw
  else EncodeOutcome.ok (mother_syndrome st x)

/-- `RateAdaptiveCode::encode_at_current_rate`: on a wrong input length it only
emits a debug message and returns without touching the output buffer, otherwise
it writes the syndrome of the current rate-adapted matrix. -/
def encode_at_current_rate (st : CodeState) (x : List Bool) : EncodeOutcome :=
  if x.length ≠ st.n_cols then EncodeOutcome.silentNoWrite
  else EncodeOutcome.ok (current_syndrome st x)

/-- `static_cast<bool>` of a stored `std::int8_t` syndrome entry. -/
def intBitToBool (v : Int) : Bool := decide (v ≠ 0)

/-- A syndrome bit stored into the signed `std::int8_t` working buffer. -/
def boolToSyndromeBit (b : Bool) : Int := if b then 1 else 0

/-- The marking loop of `encode_with_ra`: XOR the (int8-cast) entries of each
pair into the rate-adapted part and overwrite both entries with `-1`. -/
def raMarkLoop (s : List Int) (ps : List (Nat × Nat)) : List Int × List Bool :=
  markFold (-1) (fun a b => xor_as_bools (intBitToBool a) (intBitToBool b)) s ps

/-- The front region of the `encode_with_ra` output: `m` slots preinitialized to
`0` by `out.assign`, of which the first ones are overwritten by the copy loop
with the syndrome entries not marked `-1`. -/
def padTo (l : List Bool) (m : Nat) : List Bool :=
  l ++ List.replicate (m - l.length) false

/-- Syndrome written by `encode_with_ra` for `k = M - L` line combinations:
the entries of the (marked) mother syndrome not equal to `-1`, copied to the
front in order, followed by the `k` pairwise XORs. -/
def encode_with_ra_core (st : CodeState) (x : List Bool) (k L : Nat) : List Bool :=
  padTo ((((raMarkLoop ((mother_syndrome st x).map boolToSyndromeBit)
      (ratePairs st.rows_to_combine k)).1.filter (fun v => decide (v ≠ -1))).take
        (L - k)).map intBitToBool) (L - k)
    ++ (raMarkLoop ((mother_syndrome st x).map boolToSyndromeBit)
        (ratePairs st.rows_to_combine k)).2

/-- `RateAdaptiveCode::encode_with_ra`: compute the mother syndrome, put the
pairwise XORs of the first `M - L` pairs at the back of the output, then copy the
entries not marked `-1` to the front (skipping marked ones).  The lower rate
bound `output_syndrome_length < n_mother_rows - rows_to_combine.size() / 2` is
computed on `std::size_t` and wraps when the combination list holds more than
`2 * n_mother_rows` indices, in which case the function always throws. -/
def encode_with_ra (st : CodeState) (x : List Bool) (L : Nat) : EncodeOutcome :=
  if x.length ≠ st.n_cols then EncodeOutcome.threw
  else if st.n_mother_rows < L then EncodeOutcome.threw
  else if L < usub64 st.n_mother_rows (st.rows_to_combine.length / 2) then
    EncodeOutcome.threw
  else EncodeOutcome.ok (encode_with_ra_core st x (st.n_mother_rows - L) L)

/-- Abstract numeric environment of the belief-propagation decoder.  The C++
decoder works on `double`; here messages are `ℚ` and the transcendental
functions `tanh` and `log` as well as the `std::isnan` test are abstract
parameters, so every decoder theorem holds for all of them. -/
structure BPParams where
  ftanh : ℚ → ℚ
  flog : ℚ → ℚ
  fisnan : ℚ → Bool

/-- Message saturation of a single value
(`if (a > vsat) a = vsat; else if (a < -vsat) a = -vsat;`). -/
def saturateVal (vsat a : ℚ) : ℚ :=
  if a > vsat then vsat else if a < -vsat then -vsat else a

/-- `RateAdaptiveCode::saturate` applied to a whole message table. -/
def saturate (vsat : ℚ) (mv : List (List ℚ)) : List (List ℚ) :=
  mv.map (fun v => v.map (saturateVal vsat))

/-- `1 - 2 * static_cast<double>(syndrome[m])`. -/
def syndromeSign (b : Bool) : ℚ := 1 - 2 * (if b then (1 : ℚ) else 0)

/-- `RateAdaptiveCode::check_node_update`: for every current row, form the
product of `ftanh` of the halved incoming messages times the syndrome sign, then
emit one message per edge.  The `msg_v[m][k] == 0` branch reproduces the source
exactly: its fallback product multiplies `ftanh (1/2 * msg_v[m][k])` (the `k`-th
message itself) `degree - 1` times.  Messages are deposited through the
per-variable cursor array `mc_position` of length `n_cols`. -/
def check_node_update (P : BPParams) (st : CodeState) (msg_c0 : List (List ℚ))
    (msg_v : List (List ℚ)) (syndrome : List Bool) : List (List ℚ) :=
  ((List.range st.n_ra_rows).foldl (fun acc m =>
      let msgRow := msg_v.getD m []
      let posRow := st.pos_varn.getD m []
      let mcProd := (List.range posRow.length).foldl
        (fun pr k1 => pr * P.ftanh (1 / 2 * msgRow.getD k1 0))
        (syndromeSign (syndrome.getD m false))
      (List.range posRow.length).foldl (fun ac k1 =>
        let msgPart :=
          if msgRow.getD k1 0 = 0 then
            (List.range posRow.length).foldl
              (fun mp nonk => if nonk ≠ k1 then mp * P.ftanh (1 / 2 * msgRow.getD k1 0) else mp) 1
          else mcProd / P.ftanh (1 / 2 * msgRow.getD k1 0)
        let msgFinal := P.flog ((1 + msgPart) / (1 - msgPart))
        let node := posRow.getD k1 0
        let pos := ac.2.getD node 0
        (ac.1.set node ((ac.1.getD node []).set pos msgFinal), ac.2.set node (pos + 1))) acc)
    (msg_c0, List.replicate st.n_cols 0)).1

/-- Check-node update as specified in spec sections 4.5 and 9: identical to
`check_node_update` except that the zero-denominator fallback takes the
leave-one-out product over the OTHER incoming messages,
`mp * ftanh (1/2 * msg_v[m][nonk])` for `nonk ≠ k`. -/
def check_node_update_spec (P : BPParams) (st : CodeState) (msg_c0 : List (List ℚ))
    (msg_v : List (List ℚ)) (syndrome : List Bool) : List (List ℚ) :=
  ((List.range st.n_ra_rows).foldl (fun acc m =>
      let msgRow := msg_v.getD m []
      let posRow := st.pos_varn.getD m []
      let mcProd := (List.range posRow.length).foldl
        (fun pr k1 => pr * P.ftanh (1 / 2 * msgRow.getD k1 0))
        (syndromeSign (syndrome.getD m false))
      (List.range posRow.length).foldl (fun ac k1 =>
        let msgPart :=
          if msgRow.getD k1 0 = 0 then
            (List.range posRow.length).foldl
              (fun mp nonk => if nonk ≠ k1 then mp * P.ftanh (1 / 2 * msgRow.getD nonk 0) else mp) 1
          else mcProd / P.ftanh (1 / 2 * msgRow.getD k1 0)
        let msgFinal := P.flog ((1 + msgPart) / (1 - msgPart))
        let node := posRow.getD k1 0
        let pos := ac.2.getD node 0
        (ac.1.set node ((ac.1.getD node []).set pos msgFinal), ac.2.set node (pos + 1))) acc)
    (msg_c0, List.replicate st.n_cols 0)).1

/-- `RateAdaptiveCode::var_node_update`, with the per-check cursor array
`mv_position` of length `n_cols` as in the source. -/
def var_node_update (st : CodeState) (msg_v0 : List (List ℚ)) (msg_c : List (List ℚ))
    (llrs : List ℚ) : List (List ℚ) :=
  ((List.range llrs.length).foldl (fun acc m =>
      let mvSum := (msg_c.getD m []).foldl (fun a b => a + b) (llrs.getD m 0)
      let cnRow := st.pos_checkn.getD m []
      (List.range cnRow.length).foldl (fun ac k1 =>
        let node := cnRow.getD k1 0
        let pos := ac.2.getD node 0
        (ac.1.set node ((ac.1.getD node []).set pos (mvSum - (msg_c.getD m []).getD k1 0)),
         ac.2.set node (pos + 1))) acc)
    (msg_v0, List.replicate st.n_cols 0)).1

/-- `RateAdaptiveCode::hard_decision`: bit `j` is `1` iff
`llrs[j] + Σ msg_c[j]` is negative. -/
def hard_decision (llrs : List ℚ) (msg_c : List (List ℚ)) : List Bool :=
  (List.range llrs.length).map (fun j =>
    decide ((msg_c.getD j []).foldl (fun a b => a + b) (llrs.getD j 0) < 0))

/-- Initialization of `msg_v`: `msg_v[i][j] = llrs[pos_varn[i][j]]`. -/
def initMsgV (st : CodeState) (llrs : List ℚ) : List (List ℚ) :=
  (List.range st.n_ra_rows).map (fun i => (st.pos_varn.getD i []).map (fun v => llrs.getD v 0))

/-- Initialization of `msg_c`: one zero slot per entry of `pos_checkn[i]`. -/
def initMsgC (st : CodeState) : List (List ℚ) :=
  (List.range st.n_cols).map (fun i => List.replicate (st.pos_checkn.getD i []).length 0)

/-- The divergence check: is any message `NaN`. -/
def anyNaN (P : BPParams) (mv : List (List ℚ)) : Bool :=
  mv.any (fun r => r.any P.fisnan)

/-- `std::vector::resize`: keep a prefix, pad with value-initialized elements. -/
def listResize (l : List Bool) (n : Nat) : List Bool :=
  l.take n ++ List.replicate (n - l.length) false

/-- The iteration loop of `decode_at_current_rate`.  Each pass performs the
check-node update, saturation, variable-node update, saturation, hard decision,
early termination on syndrome match, and the NaN divergence check; `out` carries
the current content of the output buffer across iterations.  (The loop body's
locals `msg_c`, `msg_v` and `out` appear as repeated subterms: the saturated
check-to-variable messages, the saturated variable-to-check messages, and the
hard decision of this pass.) -/
def decodeLoop (P : BPParams) (st : CodeState) (llrs : List ℚ) (syndrome : List Bool)
    (vsat : ℚ) :
    Nat → List (List ℚ) → List (List ℚ) → List Bool → Bool × List Bool
  | 0, _, _, out => (false, out)
  | n + 1, msg_v, msg_c, _ =>
    if encode_at_current_rate st
        (hard_decision llrs (saturate vsat (check_node_update P st msg_c msg_v syndrome)))
        = EncodeOutcome.ok syndrome then
      (true, hard_decision llrs (saturate vsat (check_node_update P st msg_c msg_v syndrome)))
    else if anyNaN P (saturate vsat (var_node_update st msg_v
        (saturate vsat (check_node_update P st msg_c msg_v syndrome)) llrs)) then
      (false, hard_decision llrs (saturate vsat (check_node_update P st msg_c msg_v syndrome)))
    else
      decodeLoop P st llrs syndrome vsat n
        (saturate vsat (var_node_update st msg_v
          (saturate vsat (check_node_update P st msg_c msg_v syndrome)) llrs))
        (saturate vsat (check_node_update P st msg_c msg_v syndrome))
        (hard_decision llrs (saturate vsat (check_node_update P st msg_c msg_v syndrome)))

/-- `RateAdaptiveCode::decode_at_current_rate`: throws (`Except.error`) on a
wrong LLR length or a syndrome length different from the current number of rows,
otherwise resizes the output buffer and runs up to `maxIter` iterations. -/
def decode_at_current_rate (P : BPParams) (st : CodeState) (llrs : List ℚ)
    (syndrome : List Bool) (out0 : List Bool) (maxIter : Nat) (vsat : ℚ) :
    Except Unit (Bool × List Bool) :=
  if llrs.length ≠ st.n_cols then Except.error ()
  else if syndrome.length ≠ st.n_ra_rows then Except.error ()
  else Except.ok (decodeLoop P st llrs syndrome vsat maxIter
        (initMsgV st llrs) (initMsgC st) (listResize out0 llrs.length))

/-- `RateAdaptiveCode::decode_infer_rate`: when the syndrome length differs from
`n_ra_rows`, first `set_rate(get_n_rows_mother_matrix() - syndrome.size())`
(a `std::size_t` subtraction), then decode at the current rate.  The returned
state reflects the mutation; a thrown exception is `Except.error`. -/
def decode_infer_rate (P : BPParams) (st : CodeState) (llrs : List ℚ)
    (syndrome : List Bool) (out0 : List Bool) (maxIter : Nat) (vsat : ℚ) :
    CodeState × Except Unit (Bool × List Bool) :=
  if syndrome.length ≠ st.n_ra_rows then
    match set_rate st (usub64 st.n_mother_rows syndrome.length) with
    | none => (st, Except.error ())
    | some st2 => (st2, decode_at_current_rate P st2 llrs syndrome out0 maxIter vsat)
  else (st, decode_at_current_rate P st llrs syndrome out0 maxIter vsat)

/-- `encode_no_ra` as a call on the object: the method is `const`, so the state
component of the result is the unchanged receiver. -/
def encode_no_ra_call (st : CodeState) (x : List Bool) : CodeState × EncodeOutcome :=
  (st, encode_no_ra st x)

/-- `encode_with_ra` as a call on the (const) object. -/
def encode_with_ra_call (st : CodeState) (x : List Bool) (L : Nat) :
    CodeState × EncodeOutcome :=
  (st, encode_with_ra st x L)

/-- `encode_at_current_rate` as a call on the (const) object. -/
def encode_at_current_rate_call (st : CodeState) (x : List Bool) :
    CodeState × EncodeOutcome :=
  (st, encode_at_current_rate st x)

/-- `decode_at_current_rate` as a call on the (const) object. -/
def decode_at_current_rate_call (P : BPParams) (st : CodeState) (llrs : List ℚ)
    (syndrome : List Bool) (out0 : List Bool) (maxIter : Nat) (vsat : ℚ) :
    CodeState × Except Unit (Bool × List Bool) :=
  (st, decode_at_current_rate P st llrs syndrome out0 maxIter vsat)

/-- Flattened index list of a pair list: `[a_0, b_0, a_1, b_1, ...]`. -/
def flatPairs (ps : List (Nat × Nat)) : List Nat :=
  ps.flatMap (fun p => [p.1, p.2])

/-- Overwrite with `sent` the entries whose index (starting at `i`) lies in
`used`; structural form of a sequence of `set` operations. -/
def maskIdx {α : Type} (sent : α) (used : List Nat) : Nat → List α → List α
  | _, [] => []
  | i, v :: rest => (if i ∈ used then sent else v) :: maskIdx sent used (i + 1) rest

/-- Decoder parameters with both transcendental functions instantiated by the
identity and no value reported as NaN; used for concrete evaluations. -/
def idParams : BPParams :=
  { ftanh := fun a => a, flog := fun a => a, fisnan := fun _ => false }

/-- A concrete 2 x 4 code with rate-adaption list `[0, 1]`; the two mother rows
`{0, 1}` and `{2, 3}` are disjoint. -/
def exampleCode1 : CodeState :=
  { n_mother_rows := 2
    n_cols := 4
    mother_pos_varn := [[0, 1], [2, 3]]
    rows_to_combine := [0, 1]
    pos_checkn := [[0], [0], [1], [1]]
    pos_varn := [[0, 1], [2, 3]]
    n_ra_rows := 2 }

/-- A concrete 2 x 1 code whose two mother rows both contain variable `0`
(the single column has weight two), with rate-adaption list `[0, 1]`. -/
def overlapCode : CodeState :=
  { n_mother_rows := 2
    n_cols := 1
    mother_pos_varn := [[0], [0]]
    rows_to_combine := [0, 1]
    pos_checkn := [[0, 1]]
    pos_varn := [[0], [0]]
    n_ra_rows := 2 }

/-- The 1 x 1 code (single column, single row). -/
def code11 : CodeState :=
  { n_mother_rows := 1
    n_cols := 1
    mother_pos_varn := [[0]]
    rows_to_combine := []
    pos_checkn := [[0]]
    pos_varn := [[0]]
    n_ra_rows := 1 }

/-- A 1 x 2 code with the single check node connected to both variables. -/
def code12 : CodeState :=
  { n_mother_rows := 1
    n_cols := 2
    mother_pos_varn := [[0, 1]]
    rows_to_combine := []
    pos_checkn := [[0], [0]]
    pos_varn := [[0, 1]]
    n_ra_rows := 1 }

/-- Rate-adapt-combine layout of spec section 4.3 applied to a mother syndrome
`s`: first the entries of `s` at row indices not among the first `k` pairs, in
ascending index order, then the XORs `s[a_t] XOR s[b_t]` in pair order. -/
def raCombineSpec (s : List Bool) (rtc : List Nat) (k : Nat) : List Bool :=
  selectIdx (rtc.take (2 * k)) 0 s ++
    (ratePairs rtc k).map (fun p => xor_as_bools (s.getD p.1 false) (s.getD p.2 false))

/-- The Tanner adjacency invariant of spec sections 3 and 8: the current
`pos_varn` has one row per current check node, the two tables are transposes of
each other, and every inner sequence is strictly increasing. -/
def AdjacencyInvariant (st : CodeState) : Prop :=
  st.pos_varn.length = st.n_ra_rows ∧
  (∀ i j, i < st.n_ra_rows → j < st.n_cols →
      (j ∈ st.pos_varn.getD i [] ↔ i ∈ st.pos_checkn.getD j [])) ∧
  (∀ row ∈ st.pos_varn, row.Pairwise (fun a b => a < b)) ∧
  (∀ row ∈ st.pos_checkn, row.Pairwise (fun a b => a < b))

theorem getD_set_self {α : Type} {l : List α} {i : Nat} (h : i < l.length) (a d : α) :
    (l.set i a).getD i d = a := by
  rw [List.getD_eq_getElem?_getD, List.getElem?_set_self h]
  rfl

theorem getD_set_ne {α : Type} {l : List α} {i j : Nat} (h : i ≠ j) (a d : α) :
    (l.set i a).getD j d = l.getD j d := by
  rw [List.getD_eq_getElem?_getD, List.getElem?_set_ne h, ← List.getD_eq_getElem?_getD]

theorem getD_replicate_default {α : Type} (n i : Nat) (a : α) :
    (List.replicate n a).getD i a = a := by
  rw [List.getD_eq_getElem?_getD]
  rcases Nat.lt_or_ge i n with h | h
  · rw [List.getElem?_eq_getElem (by simpa using h), List.getElem_replicate]
    rfl
  · rw [List.getElem?_eq_none (by simpa using h)]
    rfl

theorem mem_of_mem_set {α : Type} {a v : α} {i : Nat} :
    ∀ {l : List α}, v ∈ l.set i a → v ∈ l ∨ v = a := by
  intro l
  induction l generalizing i with
  | nil => intro h; exact absurd h (by simp)
  | cons x xs ih =>
    cases i with
    | zero =>
      intro h
      rcases List.mem_cons.mp h with h | h
      · exact Or.inr h
      · exact Or.inl (List.mem_cons_of_mem _ h)
    | succ n =>
      intro h
      rcases List.mem_cons.mp h with h | h
      · exact Or.inl (h ▸ List.mem_cons_self _ _)
      · rcases ih h with h | h
        · exact Or.inl (List.mem_cons_of_mem _ h)
        · exact Or.inr h

theorem getD_mem_or_default {α : Type} (l : List α) (i : Nat) (d : α) :
    l.getD i d ∈ l ∨ l.getD i d = d := by
  rcases Nat.lt_or_ge i l.length with h | h
  · rw [List.getD_eq_getElem _ _ h]
    exact Or.inl (List.getElem_mem h)
  · rw [List.getD_eq_getElem?_getD, List.getElem?_eq_none h]
    exact Or.inr rfl

theorem getD_map_of_lt {α β : Type} (g : α → β) (l : List α) {i : Nat} (h : i < l.length)
    (d : β) (d2 : α) : (l.map g).getD i d = g (l.getD i d2) := by
  rw [List.getD_eq_getElem _ _ (by simpa using h), List.getD_eq_getElem _ _ h,
    List.getElem_map]

theorem xor_as_bools_false_right (a : Bool) : xor_as_bools a false = a := by
  cases a <;> rfl

theorem encodeRow_cons (x : List Bool) (c : Nat) (row : List Nat) (b : Bool) :
    (c :: row).foldl (fun acc v => xor_as_bools acc (x.getD v false)) b
      = (row).foldl (fun acc v => xor_as_bools acc (x.getD v false))
          (xor_as_bools b (x.getD c false)) := rfl

theorem encodeRow_foldl_init (x : List Bool) :
    ∀ (row : List Nat) (b : Bool),
      row.foldl (fun acc v => xor_as_bools acc (x.getD v false)) b
        = xor_as_bools b (encodeRow x row) := by
  intro row
  induction row with
  | nil => intro b; cases b <;> rfl
  | cons c cs ih =>
    intro b
    rw [encodeRow_cons]
    rw [ih]
    show xor_as_bools (xor_as_bools b (x.getD c false)) (encodeRow x cs)
      = xor_as_bools b (encodeRow x (c :: cs))
    have hc : encodeRow x (c :: cs)
        = xor_as_bools (xor_as_bools false (x.getD c false)) (encodeRow x cs) := by
      unfold encodeRow
      rw [encodeRow_cons]
      exact ih _
    rw [hc]
    unfold xor_as_bools
    cases b <;> cases x.getD c false <;> cases encodeRow x cs <;> rfl

theorem encodeRow_append (x : List Bool) (l1 l2 : List Nat) :
    encodeRow x (l1 ++ l2) = xor_as_bools (encodeRow x l1) (encodeRow x l2) := by
  unfold encodeRow
  rw [List.foldl_append]
  exact encodeRow_foldl_init x l2 _

theorem encodeRow_perm (x : List Bool) {l1 l2 : List Nat} (h : l1.Perm l2) :
    encodeRow x l1 = encodeRow x l2 := by
  induction h with
  | nil => rfl
  | cons a h ih =>
    show encodeRow x (a :: _) = encodeRow x (a :: _)
    unfold encodeRow
    rw [encodeRow_cons, encodeRow_cons, encodeRow_foldl_init, encodeRow_foldl_init]
    exact congrArg _ ih
  | swap a b l =>
    unfold encodeRow
    rw [encodeRow_cons, encodeRow_cons, encodeRow_cons, encodeRow_cons,
      encodeRow_foldl_init, encodeRow_foldl_init]
    unfold xor_as_bools
    cases x.getD a false <;> cases x.getD b false <;> rfl
  | trans h1 h2 ih1 ih2 => exact ih1.trans ih2

theorem pushPairs_length (tbl : List (List Nat)) (es : List (Nat × Nat)) :
    (pushPairs tbl es).length = tbl.length := by
  unfold pushPairs
  induction es generalizing tbl with
  | nil => rfl
  | cons e es ih => rw [List.foldl_cons, ih, List.length_set]

theorem encodeRow_cons_eq (x : List Bool) (c : Nat) (cs : List Nat) :
    encodeRow x (c :: cs) = xor_as_bools (x.getD c false) (encodeRow x cs) := by
  have h2 : encodeRow x (c :: cs)
      = cs.foldl (fun acc v => xor_as_bools acc (x.getD v false))
          (xor_as_bools false (x.getD c false)) := rfl
  rw [h2, encodeRow_foldl_init]
  cases x.getD c false <;> cases encodeRow x cs <;> rfl

theorem pushPairs_getD (es : List (Nat × Nat)) :
    ∀ (tbl : List (List Nat)) (r : Nat), r < tbl.length →
      (pushPairs tbl es).getD r []
        = tbl.getD r [] ++ (es.filter (fun e => decide (e.1 = r))).map (fun e => e.2) := by
  induction es with
  | nil => intro tbl r _; simp [pushPairs]
  | cons e es ih =>
    intro tbl r hr
    have hstep : pushPairs tbl (e :: es)
        = pushPairs (tbl.set e.1 ((tbl.getD e.1 []).concat e.2)) es := rfl
    rw [hstep]
    by_cases he : e.1 = r
    · subst he
      have hf : List.filter (fun e2 => decide (e2.1 = e.1)) (e :: es)
          = e :: List.filter (fun e2 => decide (e2.1 = e.1)) es := by
        simp [List.filter_cons]
      rw [ih _ e.1 (by rw [List.length_set]; exact hr)]
      rw [getD_set_self hr, hf]
      simp [List.concat_eq_append, List.append_assoc]
    · have hf : List.filter (fun e2 => decide (e2.1 = r)) (e :: es)
          = List.filter (fun e2 => decide (e2.1 = r)) es := by
        simp [List.filter_cons, he]
      rw [ih _ r (by rw [List.length_set]; exact hr)]
      rw [getD_set_ne he, hf]

theorem scatterXor_length (x : List Bool) (es : List (Nat × Nat)) (out : List Bool) :
    (scatterXor out x es).length = out.length := by
  unfold scatterXor
  induction es generalizing out with
  | nil => rfl
  | cons e es ih => rw [List.foldl_cons, ih, List.length_set]

theorem scatterXor_getD (x : List Bool) (es : List (Nat × Nat)) :
    ∀ (out : List Bool) (r : Nat), r < out.length →
      (scatterXor out x es).getD r false
        = xor_as_bools (out.getD r false)
            (encodeRow x ((es.filter (fun e => decide (e.1 = r))).map (fun e => e.2))) := by
  induction es with
  | nil =>
    intro out r _
    show out.getD r false = xor_as_bools (out.getD r false) (encodeRow x [])
    rw [show encodeRow x [] = false from rfl, xor_as_bools_false_right]
  | cons e es ih =>
    intro out r hr
    have hstep : scatterXor out x (e :: es)
        = scatterXor (out.set e.1 (xor_as_bools (out.getD e.1 false) (x.getD e.2 false))) x es :=
      rfl
    rw [hstep]
    by_cases he : e.1 = r
    · subst he
      have hf : List.filter (fun e2 => decide (e2.1 = e.1)) (e :: es)
          = e :: List.filter (fun e2 => decide (e2.1 = e.1)) es := by
        simp [List.filter_cons]
      rw [ih _ e.1 (by rw [List.length_set]; exact hr)]
      rw [getD_set_self hr, hf, List.map_cons, encodeRow_cons_eq]
      unfold xor_as_bools
      cases out.getD e.1 false <;> cases x.getD e.2 false <;>
        cases encodeRow x ((List.filter (fun e2 => decide (e2.1 = e.1)) es).map fun e => e.2) <;>
          rfl
    · have hf : List.filter (fun e2 => decide (e2.1 = r)) (e :: es)
          = List.filter (fun e2 => decide (e2.1 = r)) es := by
        simp [List.filter_cons, he]
      rw [ih _ r (by rw [List.length_set]; exact hr)]
      rw [getD_set_ne he, hf]

theorem foldl_flatMap {α β γ : Type} (f : γ → β → γ) (g : α → List β) :
    ∀ (l : List α) (b : γ),
      (l.flatMap g).foldl f b = l.foldl (fun acc a => (g a).foldl f acc) b := by
  intro l
  induction l with
  | nil => intro b; rfl
  | cons a l ih =>
    intro b
    rw [List.flatMap_cons, List.foldl_append, List.foldl_cons, ih]

theorem encode_qc_eq_scatter (colptr row_idx values : List Nat) (Z : Nat)
    (x out0 : List Bool) :
    encode_qc colptr row_idx values Z x out0
      = scatterXor out0 x (qcEdges colptr row_idx values Z x.length) := by
  unfold encode_qc scatterXor qcEdges
  rw [foldl_flatMap]
  simp only [List.foldl_map]

theorem get_pos_varn_eq_pushPairs (colptr row_idx values : List Nat) (Z nRows nCols : Nat) :
    get_pos_varn colptr row_idx values Z nRows nCols
      = pushPairs (List.replicate nRows []) (qcEdges colptr row_idx values Z nCols) := by
  unfold get_pos_varn pushPairs qcEdges
  rw [foldl_flatMap]
  simp only [List.foldl_map]

theorem dedupAdjAux_subset {y : Nat} :
    ∀ {l : List Nat} {p : Nat}, y ∈ dedupAdjAux p l → y ∈ l := by
  intro l
  induction l with
  | nil => intro p h; exact absurd h (by simp [dedupAdjAux])
  | cons a rest ih =>
    intro p h
    unfold dedupAdjAux at h
    by_cases ha : a = p
    · rw [if_pos ha] at h
      exact List.mem_cons_of_mem _ (ih h)
    · rw [if_neg ha] at h
      rcases List.mem_cons.mp h with h | h
      · exact h ▸ List.mem_cons_self _ _
      · exact List.mem_cons_of_mem _ (ih h)

theorem dedupAdjAux_sorted :
    ∀ (l : List Nat) (p : Nat), (p :: l).Pairwise (fun a b => a ≤ b) →
      (p :: dedupAdjAux p l).Pairwise (fun a b => a < b) := by
  intro l
  induction l with
  | nil => intro p _; simp [dedupAdjAux]
  | cons a rest ih =>
    intro p hp
    unfold dedupAdjAux
    by_cases ha : a = p
    · rw [if_pos ha]
      apply ih
      subst ha
      exact hp.of_cons
    · rw [if_neg ha]
      have hp1 := List.pairwise_cons.mp hp
      have hple : p < a :=
        lt_of_le_of_ne (hp1.1 a (List.mem_cons_self _ _)) (Ne.symm ha)
      have hia := ih a hp1.2
      have hia1 := List.pairwise_cons.mp hia
      refine List.pairwise_cons.mpr ⟨?_, hia⟩
      intro z hz
      rcases List.mem_cons.mp hz with hz | hz
      · exact hz ▸ hple
      · exact lt_trans hple (hia1.1 z hz)

theorem dedupAdjAux_of_nodup :
    ∀ (l : List Nat) (p : Nat), (p :: l).Nodup → dedupAdjAux p l = l := by
  intro l
  induction l with
  | nil => intro p _; rfl
  | cons a rest ih =>
    intro p hnd
    have h1 := List.nodup_cons.mp hnd
    have hap : a ≠ p := fun h => h1.1 (h ▸ List.mem_cons_self _ _)
    unfold dedupAdjAux
    rw [if_neg hap]
    rw [ih a h1.2]

theorem sortUniq_pairwise (l : List Nat) :
    (sortUniq l).Pairwise (fun a b => a < b) := by
  unfold sortUniq
  have hs : (List.insertionSort (fun a b => a ≤ b) l).Pairwise (fun a b => a ≤ b) :=
    List.sorted_insertionSort _ l
  cases hsort : List.insertionSort (fun a b => a ≤ b) l with
  | nil => exact List.Pairwise.nil
  | cons x rest =>
    rw [hsort] at hs
    exact dedupAdjAux_sorted rest x hs

theorem sortUniq_perm {l : List Nat} (h : l.Nodup) : (sortUniq l).Perm l := by
  unfold sortUniq
  have hp := List.perm_insertionSort (fun a b => a ≤ b) l
  have hs : (List.insertionSort (fun a b => a ≤ b) l).Pairwise (fun a b => a ≤ b) :=
    List.sorted_insertionSort _ l
  cases hsort : List.insertionSort (fun a b => a ≤ b) l with
  | nil =>
    rw [hsort] at hp
    exact hp
  | cons x rest =>
    rw [hsort] at hp hs
    have hnd : (x :: rest).Nodup := (hp.symm.nodup h)
    show (x :: dedupAdjAux x rest).Perm l
    rw [dedupAdjAux_of_nodup rest x hnd]
    exact hp

theorem mem_of_mem_sortUniq {y : Nat} {l : List Nat} (h : y ∈ sortUniq l) : y ∈ l := by
  unfold sortUniq at h
  have hp := List.perm_insertionSort (fun a b => a ≤ b) l
  cases hsort : List.insertionSort (fun a b => a ≤ b) l with
  | nil => rw [hsort] at h; exact absurd h (by simp)
  | cons x rest =>
    rw [hsort] at h hp
    rcases List.mem_cons.mp h with h | h
    · exact hp.mem_iff.mp (h ▸ List.mem_cons_self _ _)
    · exact hp.mem_iff.mp (List.mem_cons_of_mem _ (dedupAdjAux_subset h))

theorem getD_set_self_default {α : Type} (l : List α) (i : Nat) (a : α) :
    (l.set i a).getD i a = a := by
  rcases Nat.lt_or_ge i l.length with h | h
  · exact getD_set_self h a a
  · rw [List.getD_eq_getElem?_getD, List.getElem?_eq_none (by rw [List.length_set]; exact h)]
    rfl

theorem maskIdx_length {α : Type} (sent : α) (used : List Nat) :
    ∀ (s : List α) (i : Nat), (maskIdx sent used i s).length = s.length := by
  intro s
  induction s with
  | nil => intro i; rfl
  | cons v rest ih => intro i; unfold maskIdx; rw [List.length_cons, List.length_cons, ih]

theorem maskIdx_getD {α : Type} (sent : α) (used : List Nat) :
    ∀ (s : List α) (i n : Nat),
      (maskIdx sent used i s).getD n sent
        = if (i + n) ∈ used then sent else s.getD n sent := by
  intro s
  induction s with
  | nil =>
    intro i n
    unfold maskIdx
    rcases Nat.decEq 0 0 with _ | _ <;> simp
  | cons v rest ih =>
    intro i n
    unfold maskIdx
    cases n with
    | zero =>
      rw [List.getD_cons_zero, List.getD_cons_zero]
      have h0 : i + 0 = i := rfl
      rw [h0]
    | succ m =>
      rw [List.getD_cons_succ, List.getD_cons_succ, ih (i + 1) m]
      have harith : i + 1 + m = i + (m + 1) := by omega
      rw [harith]

theorem foldlSet_length {α : Type} (sent : α) :
    ∀ (u : List Nat) (s : List α), (u.foldl (fun c j => c.set j sent) s).length = s.length := by
  intro u
  induction u with
  | nil => intro s; rfl
  | cons j u ih => intro s; rw [List.foldl_cons, ih, List.length_set]

theorem foldlSet_getD {α : Type} (sent : α) :
    ∀ (u : List Nat) (s : List α) (i : Nat),
      (u.foldl (fun c j => c.set j sent) s).getD i sent
        = if i ∈ u then sent else s.getD i sent := by
  intro u
  induction u with
  | nil => intro s i; simp
  | cons j u ih =>
    intro s i
    rw [List.foldl_cons, ih]
    by_cases hu : i ∈ u
    · rw [if_pos hu, if_pos (List.mem_cons_of_mem _ hu)]
    · rw [if_neg hu]
      by_cases hij : i = j
      · subst hij
        rw [if_pos (List.mem_cons_self _ _)]
        exact getD_set_self_default s i sent
      · rw [getD_set_ne (fun h => hij h.symm), if_neg (by
          intro h
          rcases List.mem_cons.mp h with h | h
          · exact hij h
          · exact hu h)]

theorem foldlSet_eq_maskIdx {α : Type} (sent : α) (u : List Nat) (s : List α) :
    u.foldl (fun c j => c.set j sent) s = maskIdx sent u 0 s := by
  apply List.ext_getElem
  · rw [foldlSet_length, maskIdx_length]
  · intro n h1 h2
    have hn : n < s.length := by rw [foldlSet_length] at h1; exact h1
    have e1 : (u.foldl (fun c j => c.set j sent) s)[n] =
        (u.foldl (fun c j => c.set j sent) s).getD n sent :=
      (List.getD_eq_getElem _ _ h1).symm
    have e2 : (maskIdx sent u 0 s)[n] = (maskIdx sent u 0 s).getD n sent :=
      (List.getD_eq_getElem _ _ h2).symm
    rw [e1, e2, foldlSet_getD, maskIdx_getD]
    have h0 : 0 + n = n := by omega
    rw [h0]

theorem filter_maskIdx {α : Type} [DecidableEq α] (sent : α) (used : List Nat) :
    ∀ (s : List α) (i : Nat), (∀ v ∈ s, v ≠ sent) →
      (maskIdx sent used i s).filter (fun v => decide (v ≠ sent)) = selectIdx used i s := by
  intro s
  induction s with
  | nil => intro i _; rfl
  | cons v rest ih =>
    intro i hv
    have hstep := ih (i + 1) (fun w hw => hv w (List.mem_cons_of_mem _ hw))
    unfold maskIdx selectIdx
    by_cases hi : i ∈ used
    · rw [if_pos hi, if_pos hi]
      simp [List.filter_cons]
      simpa using hstep
    · rw [if_neg hi, if_neg hi]
      have hvne : v ≠ sent := hv v (List.mem_cons_self _ _)
      simp [List.filter_cons, hvne]
      simpa using hstep

theorem selectIdx_length_add {α : Type} (used : List Nat) :
    ∀ (s : List α) (i : Nat),
      (selectIdx used i s).length
        + ((List.range' i s.length).filter (fun j => decide (j ∈ used))).length
        = s.length := by
  intro s
  induction s with
  | nil => intro i; rfl
  | cons v rest ih =>
    intro i
    have hr : List.range' i (v :: rest).length = i :: List.range' (i + 1) rest.length := by
      rw [List.length_cons, List.range'_succ]
    rw [hr]
    have hfilt :
        (List.filter (fun j => decide (j ∈ used)) (i :: List.range' (i + 1) rest.length)).length
          = (if i ∈ used then 1 else 0)
            + (List.filter (fun j => decide (j ∈ used)) (List.range' (i + 1) rest.length)).length := by
      rw [List.filter_cons]
      by_cases hi : i ∈ used
      · simp [hi]
        omega
      · simp [hi]
    rw [hfilt]
    have hih := ih (i + 1)
    unfold selectIdx
    by_cases hi : i ∈ used
    · rw [if_pos hi, if_pos hi]
      rw [List.length_cons]
      omega
    · rw [if_neg hi, if_neg hi]
      rw [List.length_cons, List.length_cons]
      omega

theorem selectIdx_map {α β : Type} (g : α → β) (used : List Nat) :
    ∀ (s : List α) (i : Nat), selectIdx used i (s.map g) = (selectIdx used i s).map g := by
  intro s
  induction s with
  | nil => intro i; rfl
  | cons v rest ih =>
    intro i
    rw [List.map_cons]
    unfold selectIdx
    by_cases hi : i ∈ used
    · rw [if_pos hi, if_pos hi, ih]
    · rw [if_neg hi, if_neg hi, List.map_cons, ih]

theorem selectIdx_nil_used {α : Type} : ∀ (s : List α) (i : Nat), selectIdx [] i s = s := by
  intro s
  induction s with
  | nil => intro i; rfl
  | cons v rest ih => intro i; unfold selectIdx; rw [if_neg (by simp), ih]

theorem filter_range_mem_length {used : List Nat} {M : Nat} (hnd : used.Nodup)
    (hlt : ∀ r ∈ used, r < M) :
    ((List.range' 0 M).filter (fun j => decide (j ∈ used))).length = used.length := by
  have h0 : List.range' 0 M = List.range M := by rw [List.range_eq_range']
  rw [h0]
  have hnodupf : ((List.range M).filter (fun j => decide (j ∈ used))).Nodup :=
    (List.nodup_range M).filter _
  have hperm : ((List.range M).filter (fun j => decide (j ∈ used))).Perm used := by
    apply List.perm_of_nodup_nodup_toFinset_eq hnodupf hnd
    ext a
    simp only [List.mem_toFinset, List.mem_filter, List.mem_range, decide_eq_true_eq]
    exact ⟨fun h => h.2, fun h => ⟨hlt a h, h⟩⟩
  exact hperm.length_eq


theorem flatPairs_cons (p : Nat × Nat) (ps : List (Nat × Nat)) :
    flatPairs (p :: ps) = p.1 :: p.2 :: flatPairs ps := by
  unfold flatPairs
  rw [List.flatMap_cons]
  rfl

theorem markFold_def {α β : Type} (sent : α) (f : α → α → β) (s0 : List α)
    (ps : List (Nat × Nat)) :
    markFold sent f s0 ps
      = ps.foldl (fun a p =>
          ((a.1.set p.1 sent).set p.2 sent,
           a.2.concat (f (a.1.getD p.1 sent) (a.1.getD p.2 sent)))) (s0, []) := rfl

theorem markFold_spec_aux {α β : Type} (sent : α) (f : α → α → β) (s0 : List α) :
    ∀ (ps : List (Nat × Nat)) (cur : List α) (acc : List β),
      cur.length = s0.length →
      (∀ i ∈ flatPairs ps, i < s0.length ∧ cur.getD i sent = s0.getD i sent) →
      (flatPairs ps).Nodup →
      ps.foldl (fun a p =>
          ((a.1.set p.1 sent).set p.2 sent,
           a.2.concat (f (a.1.getD p.1 sent) (a.1.getD p.2 sent)))) (cur, acc)
        = ((flatPairs ps).foldl (fun c j => c.set j sent) cur,
           acc ++ ps.map (fun p => f (s0.getD p.1 sent) (s0.getD p.2 sent))) := by
  intro ps
  induction ps with
  | nil => intro cur acc _ _ _; simp [flatPairs]
  | cons p ps ih =>
    intro cur acc hlen hagree hnd
    rw [flatPairs_cons] at hnd
    have hnd1 := List.nodup_cons.mp hnd
    have hnd2 := List.nodup_cons.mp hnd1.2
    have hp1 := hagree p.1 (by rw [flatPairs_cons]; exact List.mem_cons_self _ _)
    have hp2 := hagree p.2
      (by rw [flatPairs_cons]; exact List.mem_cons_of_mem _ (List.mem_cons_self _ _))
    rw [List.foldl_cons]
    have hcur2len : ((cur.set p.1 sent).set p.2 sent).length = s0.length := by
      rw [List.length_set, List.length_set]; exact hlen
    have hagree2 : ∀ i ∈ flatPairs ps,
        i < s0.length ∧ ((cur.set p.1 sent).set p.2 sent).getD i sent = s0.getD i sent := by
      intro i hi
      have hne1 : p.1 ≠ i := fun h =>
        hnd1.1 (h ▸ List.mem_cons_of_mem _ hi)
      have hne2 : p.2 ≠ i := fun h => hnd2.1 (h ▸ hi)
      exact ⟨(hagree i (by rw [flatPairs_cons]
                           exact List.mem_cons_of_mem _ (List.mem_cons_of_mem _ hi))).1,
        by rw [getD_set_ne hne2, getD_set_ne hne1]
           exact (hagree i (by rw [flatPairs_cons]
                               exact List.mem_cons_of_mem _ (List.mem_cons_of_mem _ hi))).2⟩
    rw [ih _ _ hcur2len hagree2 hnd2.2]
    rw [flatPairs_cons, List.foldl_cons, List.foldl_cons]
    rw [List.map_cons, hp1.2, hp2.2]
    rw [List.concat_eq_append, List.append_assoc, List.singleton_append]

theorem markFold_eq {α β : Type} (sent : α) (f : α → α → β) (s0 : List α)
    (ps : List (Nat × Nat))
    (hlt : ∀ i ∈ flatPairs ps, i < s0.length)
    (hnd : (flatPairs ps).Nodup) :
    markFold sent f s0 ps
      = (maskIdx sent (flatPairs ps) 0 s0,
         ps.map (fun p => f (s0.getD p.1 sent) (s0.getD p.2 sent))) := by
  rw [markFold_def]
  rw [markFold_spec_aux sent f s0 ps s0 [] rfl (fun i hi => ⟨hlt i hi, rfl⟩) hnd]
  rw [foldlSet_eq_maskIdx, List.nil_append]

theorem markFold_fst_length {α β : Type} (sent : α) (f : α → α → β) :
    ∀ (ps : List (Nat × Nat)) (cur : List α) (acc : List β),
      (ps.foldl (fun a p =>
          ((a.1.set p.1 sent).set p.2 sent,
           a.2.concat (f (a.1.getD p.1 sent) (a.1.getD p.2 sent)))) (cur, acc)).1.length
        = cur.length := by
  intro ps
  induction ps with
  | nil => intro cur acc; rfl
  | cons p ps ih =>
    intro cur acc
    rw [List.foldl_cons, ih, List.length_set, List.length_set]

theorem markFold_snd_length {α β : Type} (sent : α) (f : α → α → β) :
    ∀ (ps : List (Nat × Nat)) (cur : List α) (acc : List β),
      (ps.foldl (fun a p =>
          ((a.1.set p.1 sent).set p.2 sent,
           a.2.concat (f (a.1.getD p.1 sent) (a.1.getD p.2 sent)))) (cur, acc)).2.length
        = acc.length + ps.length := by
  intro ps
  induction ps with
  | nil => intro cur acc; rfl
  | cons p ps ih =>
    intro cur acc
    rw [List.foldl_cons, ih]
    show (acc.concat (f (cur.getD p.1 sent) (cur.getD p.2 sent))).length + ps.length
        = acc.length + (p :: ps).length
    rw [List.length_concat, List.length_cons]
    omega

theorem markFold_mem {α β : Type} (sent : α) (f : α → α → β) :
    ∀ (ps : List (Nat × Nat)) (cur : List α) (acc : List β),
      (∀ r ∈ (ps.foldl (fun a p =>
          ((a.1.set p.1 sent).set p.2 sent,
           a.2.concat (f (a.1.getD p.1 sent) (a.1.getD p.2 sent)))) (cur, acc)).1,
        r ∈ cur ∨ r = sent) ∧
      (∀ w ∈ (ps.foldl (fun a p =>
          ((a.1.set p.1 sent).set p.2 sent,
           a.2.concat (f (a.1.getD p.1 sent) (a.1.getD p.2 sent)))) (cur, acc)).2,
        w ∈ acc ∨ ∃ a b, (a ∈ cur ∨ a = sent) ∧ (b ∈ cur ∨ b = sent) ∧ w = f a b) := by
  intro ps
  induction ps with
  | nil => intro cur acc; exact ⟨fun r hr => Or.inl hr, fun w hw => Or.inl hw⟩
  | cons p ps ih =>
    intro cur acc
    rw [List.foldl_cons]
    have hsub : ∀ r : α, r ∈ (cur.set p.1 sent).set p.2 sent → r ∈ cur ∨ r = sent := by
      intro r hr
      rcases mem_of_mem_set hr with hr | hr
      · exact mem_of_mem_set hr
      · exact Or.inr hr
    have hv1 : (cur.getD p.1 sent ∈ cur ∨ cur.getD p.1 sent = sent) :=
      getD_mem_or_default cur p.1 sent
    have hv2 : (cur.getD p.2 sent ∈ cur ∨ cur.getD p.2 sent = sent) :=
      getD_mem_or_default cur p.2 sent
    constructor
    · intro r hr
      rcases (ih _ _).1 r hr with h | h
      · exact hsub r h
      · exact Or.inr h
    · intro w hw
      rcases (ih _ _).2 w hw with h | h
      · rw [List.concat_eq_append] at h
        rcases List.mem_append.mp h with h | h
        · exact Or.inl h
        · refine Or.inr ⟨cur.getD p.1 sent, cur.getD p.2 sent, hv1, hv2, ?_⟩
          rcases List.mem_singleton.mp h with h
          exact h
      · rcases h with ⟨a, b, ha, hb, hfab⟩
        refine Or.inr ⟨a, b, ?_, ?_, hfab⟩
        · rcases ha with ha | ha
          · exact hsub a ha
          · exact Or.inr ha
        · rcases hb with hb | hb
          · exact hsub b hb
          · exact Or.inr hb


theorem ratePairs_zero (rtc : List Nat) : ratePairs rtc 0 = [] := rfl

theorem ratePairs_succ (rtc : List Nat) (k : Nat) :
    ratePairs rtc (k + 1)
      = ratePairs rtc k ++ [(rtc.getD (2 * k) 0, rtc.getD (2 * k + 1) 0)] := by
  unfold ratePairs
  rw [List.range_succ, List.map_append]
  rfl

theorem flatPairs_append (l1 l2 : List (Nat × Nat)) :
    flatPairs (l1 ++ l2) = flatPairs l1 ++ flatPairs l2 := by
  unfold flatPairs
  rw [List.flatMap_append]

theorem flatPairs_ratePairs (rtc : List Nat) :
    ∀ (k : Nat), 2 * k ≤ rtc.length → flatPairs (ratePairs rtc k) = rtc.take (2 * k) := by
  intro k
  induction k with
  | zero => intro _; rfl
  | succ m ih =>
    intro h
    have hm : 2 * m ≤ rtc.length := by omega
    have h1 : 2 * m < rtc.length := by omega
    have h2 : 2 * m + 1 < rtc.length := by omega
    rw [ratePairs_succ, flatPairs_append, ih hm]
    have ht1 : rtc.take (2 * (m + 1)) = rtc.take (2 * m + 1) ++ (rtc[2 * m + 1]?).toList := by
      have : 2 * (m + 1) = (2 * m + 1) + 1 := by omega
      rw [this, List.take_succ]
    have ht2 : rtc.take (2 * m + 1) = rtc.take (2 * m) ++ (rtc[2 * m]?).toList :=
      List.take_succ
    rw [ht1, ht2, List.getElem?_eq_getElem h1, List.getElem?_eq_getElem h2]
    rw [← List.getD_eq_getElem rtc 0 h1, ← List.getD_eq_getElem rtc 0 h2]
    rw [List.append_assoc]
    rfl

theorem fst_mem_flatPairs {p : Nat × Nat} {ps : List (Nat × Nat)} (h : p ∈ ps) :
    p.1 ∈ flatPairs ps := by
  unfold flatPairs
  rw [List.mem_flatMap]
  exact ⟨p, h, List.mem_cons_self _ _⟩

theorem snd_mem_flatPairs {p : Nat × Nat} {ps : List (Nat × Nat)} (h : p ∈ ps) :
    p.2 ∈ flatPairs ps := by
  unfold flatPairs
  rw [List.mem_flatMap]
  exact ⟨p, h, List.mem_cons_of_mem _ (List.mem_cons_self _ _)⟩

theorem intBitToBool_boolToSyndromeBit (b : Bool) :
    intBitToBool (boolToSyndromeBit b) = b := by cases b <;> rfl

theorem boolToSyndromeBit_ne_neg_one (b : Bool) : boolToSyndromeBit b ≠ -1 := by
  cases b <;> decide

theorem mother_syndrome_length (st : CodeState) (x : List Bool) :
    (mother_syndrome st x).length = st.mother_pos_varn.length := by
  unfold mother_syndrome
  rw [List.length_map]

theorem mother_syndrome_getD (st : CodeState) (x : List Bool) {r : Nat}
    (h : r < st.mother_pos_varn.length) :
    (mother_syndrome st x).getD r false = encodeRow x (st.mother_pos_varn.getD r []) := by
  unfold mother_syndrome
  exact getD_map_of_lt _ _ h false []

theorem nodup_lt_length_le {l : List Nat} {M : Nat} (hnd : l.Nodup)
    (hlt : ∀ r ∈ l, r < M) : l.length ≤ M := by
  have h1 : l.toFinset.card = l.length := List.toFinset_card_of_nodup hnd
  have h2 : l.toFinset ⊆ Finset.range M := by
    intro a ha
    rw [List.mem_toFinset] at ha
    rw [Finset.mem_range]
    exact hlt a ha
  have h3 := Finset.card_le_card h2
  rw [h1, Finset.card_range] at h3
  exact h3

theorem take_length_of_le {rtc : List Nat} {n : Nat} (h : n ≤ rtc.length) :
    (rtc.take n).length = n := by
  rw [List.length_take]
  exact Nat.min_eq_left h


theorem encode_with_ra_layout (st : CodeState) (x : List Bool) (k : Nat)
    (hM : st.mother_pos_varn.length = st.n_mother_rows)
    (hx : x.length = st.n_cols)
    (hk : 2 * k ≤ st.rows_to_combine.length)
    (hnd : (st.rows_to_combine.take (2 * k)).Nodup)
    (hlt : ∀ r ∈ st.rows_to_combine.take (2 * k), r < st.n_mother_rows)
    (hM64 : st.n_mother_rows < 2 ^ 64)
    (hK : st.rows_to_combine.length / 2 ≤ st.n_mother_rows) :
    encode_with_ra st x (st.n_mother_rows - k)
      = EncodeOutcome.ok (raCombineSpec (mother_syndrome st x) st.rows_to_combine k) := by
  have husubK : usub64 st.n_mother_rows (st.rows_to_combine.length / 2)
      = st.n_mother_rows - st.rows_to_combine.length / 2 := by
    unfold usub64
    have e1 : 2 ^ 64 + st.n_mother_rows - st.rows_to_combine.length / 2
        = 2 ^ 64 + (st.n_mother_rows - st.rows_to_combine.length / 2) := by omega
    rw [e1, Nat.add_mod_left, Nat.mod_eq_of_lt (by omega)]
  have hused_len : (st.rows_to_combine.take (2 * k)).length = 2 * k := take_length_of_le hk
  have h2kM : 2 * k ≤ st.n_mother_rows := by
    have h := nodup_lt_length_le hnd hlt
    omega
  have hkdiv : k ≤ st.rows_to_combine.length / 2 :=
    (Nat.le_div_iff_mul_le (by omega)).mpr (by omega)
  have hsub : st.n_mother_rows - st.rows_to_combine.length / 2 ≤ st.n_mother_rows - k :=
    Nat.sub_le_sub_left hkdiv _
  have hk2 : st.n_mother_rows - (st.n_mother_rows - k) = k := by omega
  have hslen : (mother_syndrome st x).length = st.n_mother_rows := by
    rw [mother_syndrome_length, hM]
  have hsIntLen : ((mother_syndrome st x).map boolToSyndromeBit).length
      = st.n_mother_rows := by
    rw [List.length_map, hslen]
  have hflat : flatPairs (ratePairs st.rows_to_combine k) = st.rows_to_combine.take (2 * k) :=
    flatPairs_ratePairs _ _ hk
  unfold encode_with_ra
  rw [husubK]
  rw [if_neg (by omega), if_neg (by omega), if_neg (by omega), hk2]
  unfold encode_with_ra_core
  have hres : raMarkLoop ((mother_syndrome st x).map boolToSyndromeBit)
      (ratePairs st.rows_to_combine k)
      = (maskIdx (-1) (st.rows_to_combine.take (2 * k)) 0
            ((mother_syndrome st x).map boolToSyndromeBit),
         (ratePairs st.rows_to_combine k).map (fun p =>
           xor_as_bools
             (intBitToBool (((mother_syndrome st x).map boolToSyndromeBit).getD p.1 (-1)))
             (intBitToBool (((mother_syndrome st x).map boolToSyndromeBit).getD p.2 (-1))))) := by
    unfold raMarkLoop
    rw [markFold_eq _ _ _ _
      (by rw [hflat, hsIntLen]; exact hlt)
      (by rw [hflat]; exact hnd)]
    rw [hflat]
  have hres1 : (raMarkLoop ((mother_syndrome st x).map boolToSyndromeBit)
      (ratePairs st.rows_to_combine k)).1
      = maskIdx (-1) (st.rows_to_combine.take (2 * k)) 0
          ((mother_syndrome st x).map boolToSyndromeBit) := by
    rw [hres]
  have hres2 : (raMarkLoop ((mother_syndrome st x).map boolToSyndromeBit)
      (ratePairs st.rows_to_combine k)).2
      = (ratePairs st.rows_to_combine k).map (fun p =>
          xor_as_bools
            (intBitToBool (((mother_syndrome st x).map boolToSyndromeBit).getD p.1 (-1)))
            (intBitToBool (((mother_syndrome st x).map boolToSyndromeBit).getD p.2 (-1)))) := by
    rw [hres]
  have hentries : ∀ v ∈ (mother_syndrome st x).map boolToSyndromeBit, v ≠ (-1 : Int) := by
    intro v hv
    rcases List.mem_map.mp hv with ⟨b, _, hb⟩
    exact hb ▸ boolToSyndromeBit_ne_neg_one b
  have hfilter : (maskIdx (-1) (st.rows_to_combine.take (2 * k)) 0
        ((mother_syndrome st x).map boolToSyndromeBit)).filter (fun v => decide (v ≠ -1))
      = (selectIdx (st.rows_to_combine.take (2 * k)) 0 (mother_syndrome st x)).map
          boolToSyndromeBit := by
    rw [filter_maskIdx _ _ _ 0 hentries]
    exact selectIdx_map _ _ _ 0
  have hsellen : (selectIdx (st.rows_to_combine.take (2 * k)) 0 (mother_syndrome st x)).length
      = st.n_mother_rows - 2 * k := by
    have h1 := selectIdx_length_add (st.rows_to_combine.take (2 * k)) (mother_syndrome st x) 0
    rw [hslen, filter_range_mem_length hnd hlt, hused_len] at h1
    omega
  have hLk : st.n_mother_rows - k - k = st.n_mother_rows - 2 * k := by omega
  rw [hres1, hres2, hfilter, hLk]
  rw [List.take_of_length_le (le_of_eq (by rw [List.length_map, hsellen]))]
  rw [List.map_map]
  have hid : ∀ b ∈ selectIdx (st.rows_to_combine.take (2 * k)) 0 (mother_syndrome st x),
      (intBitToBool ∘ boolToSyndromeBit) b = id b := by
    intro b _
    show intBitToBool (boolToSyndromeBit b) = b
    exact intBitToBool_boolToSyndromeBit b
  rw [List.map_congr_left hid, List.map_id]
  have hpad : padTo (selectIdx (st.rows_to_combine.take (2 * k)) 0 (mother_syndrome st x))
      (st.n_mother_rows - 2 * k)
      = selectIdx (st.rows_to_combine.take (2 * k)) 0 (mother_syndrome st x) := by
    unfold padTo
    rw [hsellen, Nat.sub_self]
    simp
  rw [hpad]
  have htail : (ratePairs st.rows_to_combine k).map (fun p =>
        xor_as_bools
          (intBitToBool (((mother_syndrome st x).map boolToSyndromeBit).getD p.1 (-1)))
          (intBitToBool (((mother_syndrome st x).map boolToSyndromeBit).getD p.2 (-1))))
      = (ratePairs st.rows_to_combine k).map (fun p =>
          xor_as_bools ((mother_syndrome st x).getD p.1 false)
            ((mother_syndrome st x).getD p.2 false)) := by
    apply List.map_congr_left
    intro p hp
    have h1 : p.1 < (mother_syndrome st x).length := by
      rw [hslen]
      exact hlt _ (hflat ▸ fst_mem_flatPairs hp)
    have h2 : p.2 < (mother_syndrome st x).length := by
      rw [hslen]
      exact hlt _ (hflat ▸ snd_mem_flatPairs hp)
    rw [getD_map_of_lt boolToSyndromeBit _ h1 (-1) false,
      getD_map_of_lt boolToSyndromeBit _ h2 (-1) false,
      intBitToBool_boolToSyndromeBit, intBitToBool_boolToSyndromeBit]
  rw [htail]
  rfl


theorem new_pos_varn_layout (st : CodeState) (k : Nat)
    (hM : st.mother_pos_varn.length = st.n_mother_rows)
    (hk : 2 * k ≤ st.rows_to_combine.length)
    (hnd : (st.rows_to_combine.take (2 * k)).Nodup)
    (hlt : ∀ r ∈ st.rows_to_combine.take (2 * k), r < st.n_mother_rows)
    (hne : ∀ row ∈ st.mother_pos_varn, row ≠ []) :
    new_pos_varn st k
      = selectIdx (st.rows_to_combine.take (2 * k)) 0 st.mother_pos_varn
        ++ (ratePairs st.rows_to_combine k).map (fun p =>
            sortUniq (st.mother_pos_varn.getD p.1 [] ++ st.mother_pos_varn.getD p.2 [])) := by
  have hused_len : (st.rows_to_combine.take (2 * k)).length = 2 * k := take_length_of_le hk
  have hflat : flatPairs (ratePairs st.rows_to_combine k) = st.rows_to_combine.take (2 * k) :=
    flatPairs_ratePairs _ _ hk
  by_cases hk0 : k = 0
  · subst hk0
    unfold new_pos_varn
    rw [if_pos rfl]
    have ht0 : st.rows_to_combine.take (2 * 0) = [] := by
      rw [show 2 * 0 = 0 from rfl, List.take_zero]
    rw [ht0, ratePairs_zero, selectIdx_nil_used, List.map_nil, List.append_nil]
  · unfold new_pos_varn
    rw [if_neg hk0]
    have hres : combineLoop st.mother_pos_varn (ratePairs st.rows_to_combine k)
        = (maskIdx [] (st.rows_to_combine.take (2 * k)) 0 st.mother_pos_varn,
           (ratePairs st.rows_to_combine k).map (fun p =>
             sortUniq (st.mother_pos_varn.getD p.1 [] ++ st.mother_pos_varn.getD p.2 []))) := by
      unfold combineLoop
      rw [markFold_eq _ _ _ _
        (by rw [hflat, hM]; exact hlt)
        (by rw [hflat]; exact hnd)]
      rw [hflat]
    have hres1 : (combineLoop st.mother_pos_varn (ratePairs st.rows_to_combine k)).1
        = maskIdx [] (st.rows_to_combine.take (2 * k)) 0 st.mother_pos_varn := by
      rw [hres]
    have hres2 : (combineLoop st.mother_pos_varn (ratePairs st.rows_to_combine k)).2
        = (ratePairs st.rows_to_combine k).map (fun p =>
            sortUniq (st.mother_pos_varn.getD p.1 [] ++ st.mother_pos_varn.getD p.2 [])) := by
      rw [hres]
    rw [hres1, hres2]
    have hfilter : (maskIdx [] (st.rows_to_combine.take (2 * k)) 0 st.mother_pos_varn).filter
          (fun v => decide (v ≠ []))
        = selectIdx (st.rows_to_combine.take (2 * k)) 0 st.mother_pos_varn :=
      filter_maskIdx _ _ _ 0 hne
    have hsellen : (selectIdx (st.rows_to_combine.take (2 * k)) 0 st.mother_pos_varn).length
        = st.n_mother_rows - 2 * k := by
      have h1 := selectIdx_length_add (st.rows_to_combine.take (2 * k)) st.mother_pos_varn 0
      rw [hM, filter_range_mem_length hnd hlt, hused_len] at h1
      omega
    unfold takeNonempty
    rw [hfilter]
    rw [List.take_of_length_le (le_of_eq hsellen)]
    simp [hsellen]


theorem set_rate_encode_layout (st : CodeState) (x : List Bool) (k : Nat)
    (hM : st.mother_pos_varn.length = st.n_mother_rows)
    (hx : x.length = st.n_cols)
    (hk : 2 * k ≤ st.rows_to_combine.length)
    (hnd : (st.rows_to_combine.take (2 * k)).Nodup)
    (hlt : ∀ r ∈ st.rows_to_combine.take (2 * k), r < st.n_mother_rows)
    (hrownd : ∀ row ∈ st.mother_pos_varn, row.Nodup)
    (hrowne : ∀ row ∈ st.mother_pos_varn, row ≠ [])
    (hdisj : ∀ p ∈ ratePairs st.rows_to_combine k,
        List.Disjoint (st.mother_pos_varn.getD p.1 []) (st.mother_pos_varn.getD p.2 [])) :
    ∃ st2, set_rate st k = some st2 ∧
      encode_at_current_rate st2 x
        = EncodeOutcome.ok (raCombineSpec (mother_syndrome st x) st.rows_to_combine k) := by
  have hflat : flatPairs (ratePairs st.rows_to_combine k) = st.rows_to_combine.take (2 * k) :=
    flatPairs_ratePairs _ _ hk
  refine ⟨{ st with
      pos_varn := new_pos_varn st k
      pos_checkn := recompute_pos_checkn st.n_cols (new_pos_varn st k)
      n_ra_rows := st.n_mother_rows - k }, ?_, ?_⟩
  · unfold set_rate recompute_pos_vn_cn
    rw [if_neg (by omega)]
  · unfold encode_at_current_rate
    rw [if_neg (by exact fun hcon => hcon hx)]
    show EncodeOutcome.ok ((new_pos_varn st k).map (fun row => encodeRow x row)) = _
    rw [new_pos_varn_layout st k hM hk hnd hlt hrowne]
    rw [List.map_append, List.map_map]
    have hfront : (selectIdx (st.rows_to_combine.take (2 * k)) 0 st.mother_pos_varn).map
          (fun row => encodeRow x row)
        = selectIdx (st.rows_to_combine.take (2 * k)) 0 (mother_syndrome st x) := by
      rw [← selectIdx_map]
      rfl
    rw [hfront]
    have htail : (ratePairs st.rows_to_combine k).map
          ((fun row => encodeRow x row) ∘ fun p =>
            sortUniq (st.mother_pos_varn.getD p.1 [] ++ st.mother_pos_varn.getD p.2 []))
        = (ratePairs st.rows_to_combine k).map (fun p =>
            xor_as_bools ((mother_syndrome st x).getD p.1 false)
              ((mother_syndrome st x).getD p.2 false)) := by
      apply List.map_congr_left
      intro p hp
      have h1 : p.1 < st.mother_pos_varn.length := by
        rw [hM]
        exact hlt _ (hflat ▸ fst_mem_flatPairs hp)
      have h2 : p.2 < st.mother_pos_varn.length := by
        rw [hM]
        exact hlt _ (hflat ▸ snd_mem_flatPairs hp)
      have hRa : st.mother_pos_varn.getD p.1 [] ∈ st.mother_pos_varn := by
        rw [List.getD_eq_getElem _ _ h1]
        exact List.getElem_mem h1
      have hRb : st.mother_pos_varn.getD p.2 [] ∈ st.mother_pos_varn := by
        rw [List.getD_eq_getElem _ _ h2]
        exact List.getElem_mem h2
      have happ_nd : (st.mother_pos_varn.getD p.1 [] ++ st.mother_pos_varn.getD p.2 []).Nodup :=
        List.Nodup.append (hrownd _ hRa) (hrownd _ hRb) (hdisj p hp)
      show encodeRow x (sortUniq (st.mother_pos_varn.getD p.1 []
          ++ st.mother_pos_varn.getD p.2 [])) = _
      rw [encodeRow_perm x (sortUniq_perm happ_nd), encodeRow_append]
      rw [mother_syndrome_getD st x h1, mother_syndrome_getD st x h2]
    rw [htail]
    rfl


theorem foldl_max_le_init : ∀ (l : List Nat) (a : Nat), a ≤ l.foldl max a := by
  intro l
  induction l with
  | nil => intro a; exact Nat.le_refl a
  | cons y rest ih =>
    intro a
    rw [List.foldl_cons]
    exact Nat.le_trans (Nat.le_max_left a y) (ih (max a y))

theorem le_foldl_max : ∀ (l : List Nat) (a x : Nat), x ∈ l → x ≤ l.foldl max a := by
  intro l
  induction l with
  | nil => intro a x hx; exact absurd hx (by simp)
  | cons y rest ih =>
    intro a x hx
    rw [List.foldl_cons]
    rcases List.mem_cons.mp hx with hx | hx
    · rw [hx]
      exact Nat.le_trans (Nat.le_max_right a y) (foldl_max_le_init rest (max a y))
    · exact ih (max a y) x hx

theorem getD_le_maxRowIdx (row_idx : List Nat) (j : Nat) :
    row_idx.getD j 0 ≤ maxRowIdx row_idx := by
  rcases getD_mem_or_default row_idx j 0 with h | h
  · exact le_foldl_max _ _ _ h
  · rw [h]
    exact Nat.zero_le _

theorem cscEdges_fst_lt (colptr row_idx : List Nat) :
    ∀ e ∈ cscEdges colptr row_idx, e.1 < maxRowIdx row_idx + 1 := by
  intro e he
  unfold cscEdges at he
  rcases List.mem_flatMap.mp he with ⟨col, _, hin⟩
  rcases List.mem_map.mp hin with ⟨j, _, rfl⟩
  exact Nat.lt_succ_of_le (getD_le_maxRowIdx row_idx j)

theorem cscEdges_snd_lt (colptr row_idx : List Nat) :
    ∀ e ∈ cscEdges colptr row_idx, e.2 < colptr.length - 1 := by
  intro e he
  unfold cscEdges at he
  rcases List.mem_flatMap.mp he with ⟨col, hcolmem, hin⟩
  rcases List.mem_map.mp hin with ⟨j, _, rfl⟩
  exact List.mem_range.mp hcolmem

theorem cscEdges_pairwise (colptr row_idx : List Nat)
    (hcol : ∀ col, ((colEntryRange colptr col).map (fun j => row_idx.getD j 0)).Nodup) :
    (cscEdges colptr row_idx).Pairwise
      (fun e1 e2 => e1.2 < e2.2 ∨ (e1.2 = e2.2 ∧ e1.1 ≠ e2.1)) := by
  unfold cscEdges
  rw [List.pairwise_flatMap]
  constructor
  · intro col _
    rw [List.pairwise_map]
    have h : ((colEntryRange colptr col).map (fun j => row_idx.getD j 0)).Pairwise
        (fun a b => a ≠ b) := hcol col
    rw [List.pairwise_map] at h
    exact h.imp (fun hne => Or.inr ⟨rfl, hne⟩)
  · refine (List.pairwise_lt_range _).imp ?_
    intro a b hab x hx y hy
    rcases List.mem_map.mp hx with ⟨j1, _, rfl⟩
    rcases List.mem_map.mp hy with ⟨j2, _, rfl⟩
    exact Or.inl hab

theorem compute_mother_pos_varn_length (colptr row_idx : List Nat) :
    (compute_mother_pos_varn colptr row_idx).length = maxRowIdx row_idx + 1 := by
  unfold compute_mother_pos_varn
  rw [pushPairs_length, List.length_replicate]

theorem compute_mother_pos_varn_getD (colptr row_idx : List Nat) {r : Nat}
    (h : r < maxRowIdx row_idx + 1) :
    (compute_mother_pos_varn colptr row_idx).getD r []
      = ((cscEdges colptr row_idx).filter (fun e => decide (e.1 = r))).map (fun e => e.2) := by
  unfold compute_mother_pos_varn
  rw [pushPairs_getD _ _ _ (by rw [List.length_replicate]; exact h)]
  rw [getD_replicate_default, List.nil_append]

theorem filtered_pairs_pairwise {es : List (Nat × Nat)} {r : Nat}
    (h : es.Pairwise (fun e1 e2 => e1.2 < e2.2 ∨ (e1.2 = e2.2 ∧ e1.1 ≠ e2.1))) :
    ((es.filter (fun e => decide (e.1 = r))).map (fun e => e.2)).Pairwise
      (fun a b => a < b) := by
  rw [List.pairwise_map]
  have h1 := h.filter (fun e => decide (e.1 = r))
  refine h1.imp_of_mem ?_
  intro a b ha hb hr2
  have ha1 : a.1 = r := by simpa using (List.mem_filter.mp ha).2
  have hb1 : b.1 = r := by simpa using (List.mem_filter.mp hb).2
  rcases hr2 with h2 | h2
  · exact h2
  · exact absurd (ha1.trans hb1.symm) h2.2

theorem getD_row_pairwise {tbl : List (List Nat)} {r : Nat}
    (h : ∀ row ∈ tbl, row.Pairwise (fun a b => a < b)) :
    (tbl.getD r []).Pairwise (fun a b => a < b) := by
  rcases getD_mem_or_default tbl r [] with hm | hm
  · exact h _ hm
  · rw [hm]
    exact List.Pairwise.nil

theorem compute_mother_pos_varn_rows_sorted (colptr row_idx : List Nat)
    (hcol : ∀ col, ((colEntryRange colptr col).map (fun j => row_idx.getD j 0)).Nodup) :
    ∀ row ∈ compute_mother_pos_varn colptr row_idx, row.Pairwise (fun a b => a < b) := by
  intro row hrow
  rcases List.mem_iff_getElem.mp hrow with ⟨i, hi, heq⟩
  have hlen : i < maxRowIdx row_idx + 1 := by
    rw [← compute_mother_pos_varn_length colptr row_idx]
    exact hi
  have hget : (compute_mother_pos_varn colptr row_idx).getD i [] = row := by
    rw [List.getD_eq_getElem _ _ hi]
    exact heq
  rw [← hget, compute_mother_pos_varn_getD colptr row_idx hlen]
  exact filtered_pairs_pairwise (cscEdges_pairwise colptr row_idx hcol)

theorem compute_mother_pos_varn_entries (colptr row_idx : List Nat) :
    ∀ row ∈ compute_mother_pos_varn colptr row_idx, ∀ v ∈ row, v < colptr.length - 1 := by
  intro row hrow v hv
  rcases List.mem_iff_getElem.mp hrow with ⟨i, hi, heq⟩
  have hlen : i < maxRowIdx row_idx + 1 := by
    rw [← compute_mother_pos_varn_length colptr row_idx]
    exact hi
  have hget : (compute_mother_pos_varn colptr row_idx).getD i [] = row := by
    rw [List.getD_eq_getElem _ _ hi]
    exact heq
  rw [← hget, compute_mother_pos_varn_getD colptr row_idx hlen] at hv
  rcases List.mem_map.mp hv with ⟨e, he, rfl⟩
  exact cscEdges_snd_lt colptr row_idx e (List.mem_filter.mp he).1


theorem mem_enumFrom_le {α : Type} :
    ∀ (l : List α) (n : Nat) (p : Nat × α), p ∈ List.enumFrom n l → n ≤ p.1 := by
  intro l
  induction l with
  | nil => intro n p hp; exact absurd hp (by simp)
  | cons x rest ih =>
    intro n p hp
    rcases List.mem_cons.mp hp with hp | hp
    · rw [hp]
    · exact Nat.le_trans (Nat.le_succ n) (ih (n + 1) p hp)

theorem enumFrom_pairwise {α : Type} :
    ∀ (l : List α) (n : Nat), (List.enumFrom n l).Pairwise (fun a b => a.1 < b.1) := by
  intro l
  induction l with
  | nil => intro n; exact List.Pairwise.nil
  | cons x rest ih =>
    intro n
    refine List.pairwise_cons.mpr ⟨?_, ih (n + 1)⟩
    intro p hp
    exact Nat.lt_of_lt_of_le (Nat.lt_succ_self n) (mem_enumFrom_le rest (n + 1) p hp)

theorem enum_pairwise {α : Type} (l : List α) :
    l.enum.Pairwise (fun a b => a.1 < b.1) := by
  rw [List.enum_eq_enumFrom]
  exact enumFrom_pairwise l 0

theorem enum_mem_row {α : Type} {l : List α} {p : Nat × α} (hp : p ∈ l.enum) : p.2 ∈ l :=
  List.getElem?_mem (List.mem_enum_iff_getElem?.mp hp)

theorem transpose_edges_pairwise (pv : List (List Nat))
    (hrows : ∀ row ∈ pv, row.Nodup) :
    (pv.enum.flatMap (fun p => p.2.map (fun vn => (vn, p.1)))).Pairwise
      (fun e1 e2 => e1.2 < e2.2 ∨ (e1.2 = e2.2 ∧ e1.1 ≠ e2.1)) := by
  rw [List.pairwise_flatMap]
  constructor
  · intro p hp
    rw [List.pairwise_map]
    have hnd : p.2.Pairwise (fun a b => a ≠ b) := hrows _ (enum_mem_row hp)
    exact hnd.imp (fun hne => Or.inr ⟨rfl, hne⟩)
  · refine (enum_pairwise pv).imp ?_
    intro a b hab x hx y hy
    rcases List.mem_map.mp hx with ⟨v1, _, rfl⟩
    rcases List.mem_map.mp hy with ⟨v2, _, rfl⟩
    exact Or.inl hab

theorem recompute_pos_checkn_length (nCols : Nat) (pv : List (List Nat)) :
    (recompute_pos_checkn nCols pv).length = nCols := by
  unfold recompute_pos_checkn
  rw [pushPairs_length, List.length_replicate]

theorem recompute_pos_checkn_getD (nCols : Nat) (pv : List (List Nat)) {j : Nat}
    (h : j < nCols) :
    (recompute_pos_checkn nCols pv).getD j []
      = ((pv.enum.flatMap (fun p => p.2.map (fun vn => (vn, p.1)))).filter
          (fun e => decide (e.1 = j))).map (fun e => e.2) := by
  unfold recompute_pos_checkn
  rw [pushPairs_getD _ _ _ (by rw [List.length_replicate]; exact h)]
  rw [getD_replicate_default, List.nil_append]

theorem mem_transpose_edges {pv : List (List Nat)} {j i : Nat} :
    (j, i) ∈ pv.enum.flatMap (fun p => p.2.map (fun vn => (vn, p.1)))
      ↔ ∃ row, pv[i]? = some row ∧ j ∈ row := by
  rw [List.mem_flatMap]
  constructor
  · rintro ⟨p, hp, hmem⟩
    rcases List.mem_map.mp hmem with ⟨vn, hvn, heq⟩
    have h1 : vn = j := congrArg Prod.fst heq
    have h2 : p.1 = i := congrArg Prod.snd heq
    refine ⟨p.2, ?_, h1 ▸ hvn⟩
    have h3 := List.mem_enum_iff_getElem?.mp hp
    rw [← h2]
    exact h3
  · rintro ⟨row, hrow, hj⟩
    refine ⟨(i, row), List.mem_enum_iff_getElem?.mpr hrow, ?_⟩
    exact List.mem_map.mpr ⟨j, hj, rfl⟩

theorem recompute_pos_checkn_mem (nCols : Nat) (pv : List (List Nat)) {i j : Nat}
    (hj : j < nCols) (hi : i < pv.length) :
    (i ∈ (recompute_pos_checkn nCols pv).getD j [] ↔ j ∈ pv.getD i []) := by
  rw [recompute_pos_checkn_getD nCols pv hj]
  constructor
  · intro hmem
    rcases List.mem_map.mp hmem with ⟨e, he, hsnd⟩
    have he1 := List.mem_filter.mp he
    have hfst : e.1 = j := by simpa using he1.2
    have hee : e = (j, i) := by
      rcases e with ⟨e1, e2⟩
      rw [Prod.mk.injEq]
      exact ⟨hfst, hsnd⟩
    rw [hee] at he1
    rcases mem_transpose_edges.mp he1.1 with ⟨row, hrow, hjrow⟩
    have hrow2 : row = pv.getD i [] := by
      rw [List.getD_eq_getElem _ _ hi]
      rw [List.getElem?_eq_getElem hi] at hrow
      exact (Option.some.injEq _ _ ▸ hrow).symm
    rw [← hrow2]
    exact hjrow
  · intro hmem
    have hedge : (j, i) ∈ pv.enum.flatMap (fun p => p.2.map (fun vn => (vn, p.1))) := by
      rw [mem_transpose_edges]
      refine ⟨pv.getD i [], ?_, hmem⟩
      rw [List.getElem?_eq_getElem hi, List.getD_eq_getElem _ _ hi]
    refine List.mem_map.mpr ⟨(j, i), ?_, rfl⟩
    rw [List.mem_filter]
    exact ⟨hedge, by simp⟩

theorem recompute_pos_checkn_rows_sorted (nCols : Nat) (pv : List (List Nat))
    (hrows : ∀ row ∈ pv, row.Nodup) :
    ∀ row ∈ recompute_pos_checkn nCols pv, row.Pairwise (fun a b => a < b) := by
  intro row hrow
  rcases List.mem_iff_getElem.mp hrow with ⟨i, hi, heq⟩
  have hlen : i < nCols := by
    rw [← recompute_pos_checkn_length nCols pv]
    exact hi
  have hget : (recompute_pos_checkn nCols pv).getD i [] = row := by
    rw [List.getD_eq_getElem _ _ hi]
    exact heq
  rw [← hget, recompute_pos_checkn_getD nCols pv hlen]
  exact filtered_pairs_pairwise (transpose_edges_pairwise pv hrows)


theorem ratePairs_length (rtc : List Nat) (k : Nat) : (ratePairs rtc k).length = k := by
  unfold ratePairs
  rw [List.length_map, List.length_range]

theorem takeNonempty_length (rows : List (List Nat)) (m : Nat) :
    (takeNonempty rows m).length = m := by
  unfold takeNonempty
  have h1 : ((rows.filter (fun r => decide (r ≠ []))).take m).length ≤ m := by
    rw [List.length_take]
    exact Nat.min_le_left _ _
  simp only [List.length_append, List.length_replicate]
  omega

theorem combineLoop_snd_length (nora : List (List Nat)) (ps : List (Nat × Nat)) :
    (combineLoop nora ps).2.length = ps.length := by
  have h := markFold_snd_length ([] : List Nat) (fun a b => sortUniq (a ++ b)) ps nora []
  exact h.trans (by simp)

theorem combineLoop_fst_mem (nora : List (List Nat)) (ps : List (Nat × Nat)) :
    ∀ r ∈ (combineLoop nora ps).1, r ∈ nora ∨ r = [] :=
  fun r hr => (markFold_mem ([] : List Nat) (fun a b => sortUniq (a ++ b)) ps nora []).1 r hr

theorem combineLoop_snd_sortUniq (nora : List (List Nat)) (ps : List (Nat × Nat)) :
    ∀ w ∈ (combineLoop nora ps).2, ∃ a b, w = sortUniq (a ++ b) := by
  intro w hw
  rcases (markFold_mem ([] : List Nat) (fun a b => sortUniq (a ++ b)) ps nora []).2 w hw
    with h | h
  · exact absurd h (by simp)
  · rcases h with ⟨a, b, _, _, hfab⟩
    exact ⟨a, b, hfab⟩

theorem new_pos_varn_length (st : CodeState) (k : Nat)
    (hM : st.mother_pos_varn.length = st.n_mother_rows)
    (h2k : 2 * k ≤ st.n_mother_rows) :
    (new_pos_varn st k).length = st.n_mother_rows - k := by
  unfold new_pos_varn
  by_cases hk0 : k = 0
  · rw [if_pos hk0, hM, hk0, Nat.sub_zero]
  · rw [if_neg hk0, List.length_append, takeNonempty_length, combineLoop_snd_length,
      ratePairs_length]
    omega

theorem new_pos_varn_rows_sorted (st : CodeState) (k : Nat)
    (hrs : ∀ row ∈ st.mother_pos_varn, row.Pairwise (fun a b => a < b)) :
    ∀ row ∈ new_pos_varn st k, row.Pairwise (fun a b => a < b) := by
  intro row hrow
  unfold new_pos_varn at hrow
  by_cases hk0 : k = 0
  · rw [if_pos hk0] at hrow
    exact hrs row hrow
  · rw [if_neg hk0] at hrow
    rcases List.mem_append.mp hrow with h | h
    · unfold takeNonempty at h
      rcases List.mem_append.mp h with h | h
      · have h2 : row ∈ (combineLoop st.mother_pos_varn
            (ratePairs st.rows_to_combine k)).1 :=
          List.mem_of_mem_filter (List.mem_of_mem_take h)
        rcases combineLoop_fst_mem _ _ row h2 with h3 | h3
        · exact hrs row h3
        · rw [h3]
          exact List.Pairwise.nil
      · rw [List.eq_of_mem_replicate h]
        exact List.Pairwise.nil
    · rcases combineLoop_snd_sortUniq _ _ row h with ⟨a, b, rfl⟩
      exact sortUniq_pairwise _

theorem recompute_invariant (st st2 : CodeState) (k : Nat)
    (hM : st.mother_pos_varn.length = st.n_mother_rows)
    (hrs : ∀ row ∈ st.mother_pos_varn, row.Pairwise (fun a b => a < b))
    (h2k : 2 * k ≤ st.n_mother_rows)
    (hrec : recompute_pos_vn_cn st k = some st2) :
    AdjacencyInvariant st2 := by
  unfold recompute_pos_vn_cn at hrec
  by_cases hcase : st.rows_to_combine.length < 2 * k
  · rw [if_pos hcase] at hrec
    exact absurd hrec (by simp)
  · rw [if_neg hcase] at hrec
    have hst2 : st2 = { st with
        pos_varn := new_pos_varn st k
        pos_checkn := recompute_pos_checkn st.n_cols (new_pos_varn st k)
        n_ra_rows := st.n_mother_rows - k } := by
      have h := Option.some.inj hrec
      exact h.symm
    subst hst2
    have hlen : (new_pos_varn st k).length = st.n_mother_rows - k :=
      new_pos_varn_length st k hM h2k
    have hsorted := new_pos_varn_rows_sorted st k hrs
    have hnd : ∀ row ∈ new_pos_varn st k, row.Nodup :=
      fun row hrow => (hsorted row hrow).imp Nat.ne_of_lt
    refine ⟨hlen, ?_, ?_, ?_⟩
    · intro i j hi hj
      have hi2 : i < (new_pos_varn st k).length := by
        rw [hlen]
        exact hi
      exact (recompute_pos_checkn_mem st.n_cols (new_pos_varn st k) hj hi2).symm
    · exact hsorted
    · exact recompute_pos_checkn_rows_sorted st.n_cols (new_pos_varn st k) hnd


theorem decodeLoop_iff (P : BPParams) (st : CodeState) (llrs : List ℚ)
    (syndrome : List Bool) (vsat : ℚ) :
    ∀ (n : Nat) (msg_v msg_c : List (List ℚ)) (out : List Bool),
      encode_at_current_rate st out ≠ EncodeOutcome.ok syndrome →
      ((decodeLoop P st llrs syndrome vsat n msg_v msg_c out).1 = true ↔
        encode_at_current_rate st
            (decodeLoop P st llrs syndrome vsat n msg_v msg_c out).2
          = EncodeOutcome.ok syndrome) := by
  intro n
  induction n with
  | zero =>
    intro msg_v msg_c out hne
    exact ⟨fun h => absurd h (by simp [decodeLoop]), fun h => absurd h hne⟩
  | succ n ih =>
    intro msg_v msg_c out hne
    simp only [decodeLoop]
    split
    · next hterm => exact ⟨fun _ => hterm, fun _ => rfl⟩
    · next hterm =>
      split
      · next hnan => exact ⟨fun h => absurd h (by simp), fun h => absurd h hterm⟩
      · next hnan => exact ih _ _ _ hterm

theorem decodeLoop_succ_iff (P : BPParams) (st : CodeState) (llrs : List ℚ)
    (syndrome : List Bool) (vsat : ℚ) (n : Nat) (msg_v msg_c : List (List ℚ))
    (out : List Bool) :
    ((decodeLoop P st llrs syndrome vsat (n + 1) msg_v msg_c out).1 = true ↔
      encode_at_current_rate st
          (decodeLoop P st llrs syndrome vsat (n + 1) msg_v msg_c out).2
        = EncodeOutcome.ok syndrome) := by
  simp only [decodeLoop]
  split
  · next hterm => exact ⟨fun _ => hterm, fun _ => rfl⟩
  · next hterm =>
    split
    · next hnan => exact ⟨fun h => absurd h (by simp), fun h => absurd h hterm⟩
    · next hnan => exact decodeLoop_iff P st llrs syndrome vsat n _ _ _ hterm


/-- Claim C2: for every QC exponent matrix (colptr, row_idx, values, expansion
factor Z) and every input, the direct QC encoder `encode_qc` produces bit-for-bit
the same syndrome as XORing the input bits over the adjacency returned by
`get_pos_varn` (i.e. encoding through the expanded binary matrix), starting from
the same output buffer. -/
theorem claim2 (colptr row_idx values : List Nat) (Z : Nat) (x out0 : List Bool) :
    encode_qc colptr row_idx values Z x out0
      = encode_via_pos_varn
          (get_pos_varn colptr row_idx values Z out0.length x.length) x out0 := by
  rw [encode_qc_eq_scatter, get_pos_varn_eq_pushPairs]
  apply List.ext_getElem
  · rw [scatterXor_length]
    unfold encode_via_pos_varn
    rw [List.length_map, List.enum_length]
  · intro n h1 h2
    have hn : n < out0.length := by
      have hl := scatterXor_length x (qcEdges colptr row_idx values Z x.length) out0
      omega
    have hnrep : n < (List.replicate out0.length ([] : List Nat)).length := by
      rw [List.length_replicate]
      exact hn
    have e1 : (scatterXor out0 x (qcEdges colptr row_idx values Z x.length))[n]
        = xor_as_bools (out0.getD n false)
            (encodeRow x (((qcEdges colptr row_idx values Z x.length).filter
              (fun e => decide (e.1 = n))).map (fun e => e.2))) := by
      rw [← List.getD_eq_getElem _ false h1]
      exact scatterXor_getD x _ out0 n hn
    have e2 : (pushPairs (List.replicate out0.length [])
          (qcEdges colptr row_idx values Z x.length)).getD n []
        = ((qcEdges colptr row_idx values Z x.length).filter
            (fun e => decide (e.1 = n))).map (fun e => e.2) := by
      rw [pushPairs_getD _ _ _ hnrep, getD_replicate_default, List.nil_append]
    rw [e1]
    unfold encode_via_pos_varn
    simp only [List.getElem_map, List.getElem_enum]
    rw [e2, List.getD_eq_getElem out0 false hn]

/-- Claim C3 (evaluation of the buggy branch): in `check_node_update`, when an
incoming message is exactly zero, the fallback loop of the source multiplies
`ftanh (1/2 * msg_v[m][k])` — the zero message itself, `degree - 1` times —
instead of the leave-one-out product over the OTHER messages that the spec
requires (`check_node_update_spec`).  On a degree-2 check node with incoming
messages `[0, 3]`, syndrome bit `0`, and `ftanh = flog = id`, the code emits
`flog ((1+0)/(1-0)) = 1` on the zero edge while the spec's rule emits
`flog ((1 + 3/2)/(1 - 3/2)) = -5`. -/
theorem claim3_code_eval :
    check_node_update idParams code12 (initMsgC code12) [[0, 3]] [false] = [[1], [1]] ∧
    check_node_update_spec idParams code12 (initMsgC code12) [[0, 3]] [false]
      = [[-5], [1]] ∧
    ([[(1 : ℚ)], [1]] : List (List ℚ)) ≠ [[-5], [1]] := by
  refine ⟨?_, ?_, by norm_num⟩ <;>
    norm_num [check_node_update, check_node_update_spec, code12, initMsgC, idParams,
      syndromeSign, List.range_succ]

/-- Claim C5 counterexample: for the 1-by-1 QC exponent matrix with `Z = 3` and
stored exponent `v = 2`, the `1` contributed by the block for column `c = 0`
(block column `j = 0`, `r = 0`) is placed in row `2` — both routines place it at
`qcOutIdx 3 0 0 2 = ((2^64 - 2) % 2^64) % 3 = 2` — and not in row
`(r - v) mod Z = 1` demanded by the claim's mathematical modulus. -/
theorem claim5_cex :
    (get_pos_varn [0, 1] [0] [2] 3 3 3).getD 2 [] = [0] ∧
    (get_pos_varn [0, 1] [0] [2] 3 3 3).getD 1 [] = [] ∧
    qcOutIdx 3 0 0 2 = 2 ∧
    (((0 : Int) - 2).emod 3).toNat = 1 := by
  refine ⟨by decide, by decide, by decide, by decide⟩

/-- Claim C5 (amended): `qcOutIdx` places the `1` contributed by block row `i`
for column `c = Z*j + r` with exponent `v` at row
`Z*i + (((c - v) mod 2^64) mod Z)` (unsigned `std::size_t` wraparound).  This
equals `Z*i + ((Z + r - v) % Z)` — the mathematical `(r - v) mod Z`, as the
second conjunct states — whenever `v ≤ r`, or whenever `Z` divides `2^64` (in
particular for every power-of-two expansion factor); the counterexample shows it
fails for `v > r` when `Z` does not divide `2^64`. -/
theorem claim5_amended (Z i j r v : Nat) (hZ : 0 < Z) (hr : r < Z) (hv : v < Z)
    (hcol : Z * j + r < 2 ^ 64) (hmod : v ≤ r ∨ 2 ^ 64 % Z = 0) :
    qcOutIdx Z i (Z * j + r) v = Z * i + (Z + r - v) % Z ∧
    (((Z + r - v) % Z : Nat) : Int) = ((r : Int) - (v : Int)).emod (Z : Int) := by
  constructor
  · unfold qcOutIdx usub64
    rcases hmod with hvr | hdvd0
    · have hL : (2 ^ 64 + (Z * j + r) - v) % 2 ^ 64 % Z = r - v := by
        have e1 : 2 ^ 64 + (Z * j + r) - v = 2 ^ 64 + (Z * j + (r - v)) := by omega
        have hlt1 : Z * j + (r - v) < 2 ^ 64 := by omega
        have hlt2 : r - v < Z := by omega
        rw [e1, Nat.add_mod_left, Nat.mod_eq_of_lt hlt1, Nat.mul_add_mod,
          Nat.mod_eq_of_lt hlt2]
      have hR : (Z + r - v) % Z = r - v := by
        have e2 : Z + r - v = Z + (r - v) := by omega
        have hlt2 : r - v < Z := by omega
        rw [e2, Nat.add_mod_left, Nat.mod_eq_of_lt hlt2]
      rw [hL, hR]
    · have hdvd : Z ∣ 2 ^ 64 := Nat.dvd_of_mod_eq_zero hdvd0
      obtain ⟨u, hu⟩ := hdvd
      have hu1 : 1 ≤ u := by
        rcases Nat.eq_zero_or_pos u with h0 | h0
        · rw [h0, Nat.mul_zero] at hu
          exact absurd hu (by norm_num)
        · exact h0
      have e3 : Z * (u - 1) + Z = Z * u := by
        rw [← Nat.mul_succ]
        congr 1
        omega
      have e4 : Z * ((u - 1) + j) = Z * (u - 1) + Z * j := Nat.mul_add Z _ _
      have e2 : 2 ^ 64 + (Z * j + r) - v = Z * ((u - 1) + j) + (Z + r - v) := by
        omega
      rw [Nat.mod_mod_of_dvd _ ⟨u, hu⟩, e2, Nat.mul_add_mod]
  · have hvZr : v ≤ Z + r := by omega
    rw [Int.natCast_mod]
    have hcast : ((Z + r - v : Nat) : Int) = (Z : Int) + (r : Int) - (v : Int) := by
      rw [Nat.cast_sub hvZr, Nat.cast_add]
    rw [hcast]
    have hre : (Z : Int) + (r : Int) - (v : Int) = ((r : Int) - (v : Int)) + (Z : Int) * 1 := by
      ring
    rw [hre, Int.add_mul_emod_self_left]
    rfl

/-- Claim C5 witness: at `Z = 2`, `i = j = 0`, `r = 0`, `v = 1` (a power-of-two
expansion factor), the code's placement agrees with the mathematical modulus. -/
theorem claim5_witness :
    (0 < 2 ∧ 0 < 2 ∧ 1 < 2 ∧ 2 * 0 + 0 < 2 ^ 64 ∧ (1 ≤ 0 ∨ 2 ^ 64 % 2 = 0)) ∧
    (qcOutIdx 2 0 (2 * 0 + 0) 1 = 2 * 0 + (2 + 0 - 1) % 2 ∧
      (((2 + 0 - 1) % 2 : Nat) : Int) = ((0 : Int) - (1 : Int)).emod (2 : Int)) :=
  ⟨by decide, claim5_amended 2 0 0 0 1 (by decide) (by decide) (by decide) (by decide)
      (by decide)⟩


/-- Claim C1 (amended): when the first `2k` combination indices are distinct row
indices below `M` and the `k` combined row pairs have disjoint, nonempty,
duplicate-free mother rows, `encode_with_ra x (M - k)` and `set_rate k` followed
by `encode_at_current_rate x` both produce the section-4.3 layout: the mother
syndrome entries at rows untouched by the first `k` pairs in ascending order,
then the `k` pairwise XORs in pair order.  (Without disjointness the two paths
differ, because the combined rows are formed by sort-and-unique — set union —
rather than symmetric difference; see the counterexample.  The hypotheses also
require at most `n_mother_rows` combination pairs: with more, the lower rate
bound of `encode_with_ra` wraps on `std::size_t` and that encoder always
throws, while the `set_rate` path still succeeds.) -/
theorem claim1_amended (st : CodeState) (x : List Bool) (k : Nat)
    (hM : st.mother_pos_varn.length = st.n_mother_rows)
    (hx : x.length = st.n_cols)
    (hk : 2 * k ≤ st.rows_to_combine.length)
    (hnd : (st.rows_to_combine.take (2 * k)).Nodup)
    (hlt : ∀ r ∈ st.rows_to_combine.take (2 * k), r < st.n_mother_rows)
    (hM64 : st.n_mother_rows < 2 ^ 64)
    (hK : st.rows_to_combine.length / 2 ≤ st.n_mother_rows)
    (hrownd : ∀ row ∈ st.mother_pos_varn, row.Nodup)
    (hrowne : ∀ row ∈ st.mother_pos_varn, row ≠ [])
    (hdisj : ∀ p ∈ ratePairs st.rows_to_combine k,
        ∀ w ∈ st.mother_pos_varn.getD p.1 [], w ∉ st.mother_pos_varn.getD p.2 []) :
    encode_with_ra st x (st.n_mother_rows - k)
        = EncodeOutcome.ok (raCombineSpec (mother_syndrome st x) st.rows_to_combine k) ∧
      ∃ st2, set_rate st k = some st2 ∧
        encode_at_current_rate st2 x
          = EncodeOutcome.ok (raCombineSpec (mother_syndrome st x) st.rows_to_combine k) := by
  refine ⟨encode_with_ra_layout st x k hM hx hk hnd hlt hM64 hK, ?_⟩
  exact set_rate_encode_layout st x k hM hx hk hnd hlt hrownd hrowne
    (fun p hp a ha hb => hdisj p hp a ha hb)

/-- Claim C1 counterexample: on the 2 x 1 code whose two mother rows both
contain variable 0, with `x = [1]` and `k = 1`, `encode_with_ra` XORs the two
mother syndrome bits (`1 XOR 1 = 0`), but `set_rate(1)` combines the rows by
sort-and-unique into `{0}`, so `encode_at_current_rate` returns `1`: the two
paths disagree. -/
theorem claim1_cex :
    encode_with_ra overlapCode [true] 1 = EncodeOutcome.ok [false] ∧
    (∃ st2, set_rate overlapCode 1 = some st2 ∧
        encode_at_current_rate st2 [true] = EncodeOutcome.ok [true]) ∧
    EncodeOutcome.ok [false] ≠ EncodeOutcome.ok [true] := by
  refine ⟨by decide,
    ⟨⟨{ n_mother_rows := 2, n_cols := 1, mother_pos_varn := [[0], [0]],
        rows_to_combine := [0, 1], pos_checkn := [[0]], pos_varn := [[0]],
        n_ra_rows := 1 }, by decide, by decide⟩, by decide⟩⟩

/-- Claim C1 witness: the hypotheses and conclusion of the amended claim hold on
the concrete 2 x 4 code with disjoint mother rows, `x = [1,0,1,0]`, `k = 1`. -/
theorem claim1_witness :
    (exampleCode1.mother_pos_varn.length = exampleCode1.n_mother_rows ∧
     ([true, false, true, false] : List Bool).length = exampleCode1.n_cols ∧
     2 * 1 ≤ exampleCode1.rows_to_combine.length ∧
     (exampleCode1.rows_to_combine.take (2 * 1)).Nodup ∧
     (∀ r ∈ exampleCode1.rows_to_combine.take (2 * 1), r < exampleCode1.n_mother_rows) ∧
     exampleCode1.n_mother_rows < 2 ^ 64 ∧
     exampleCode1.rows_to_combine.length / 2 ≤ exampleCode1.n_mother_rows ∧
     (∀ row ∈ exampleCode1.mother_pos_varn, row.Nodup) ∧
     (∀ row ∈ exampleCode1.mother_pos_varn, row ≠ []) ∧
     (∀ p ∈ ratePairs exampleCode1.rows_to_combine 1,
        ∀ w ∈ exampleCode1.mother_pos_varn.getD p.1 [],
          w ∉ exampleCode1.mother_pos_varn.getD p.2 [])) ∧
    (encode_with_ra exampleCode1 [true, false, true, false]
          (exampleCode1.n_mother_rows - 1)
        = EncodeOutcome.ok (raCombineSpec
            (mother_syndrome exampleCode1 [true, false, true, false])
            exampleCode1.rows_to_combine 1) ∧
      ∃ st2, set_rate exampleCode1 1 = some st2 ∧
        encode_at_current_rate st2 [true, false, true, false]
          = EncodeOutcome.ok (raCombineSpec
              (mother_syndrome exampleCode1 [true, false, true, false])
              exampleCode1.rows_to_combine 1)) :=
  ⟨by decide,
   claim1_amended exampleCode1 [true, false, true, false] 1 (by decide) (by decide)
     (by decide) (by decide) (by decide) (by decide) (by decide) (by decide) (by decide)
     (by decide)⟩

/-- Claim C4 (amended): for `max_num_iter ≥ 1`, whenever `decode_at_current_rate`
returns normally with result `(b, out)`, `b` is `true` exactly when the written
hard decision `out` satisfies `encode_at_current_rate out = syndrome`.  (For
`max_num_iter = 0` the claim fails: the loop returns `false` with the resized
input buffer, whose syndrome may well match; see the counterexample.) -/
theorem claim4_amended (P : BPParams) (st : CodeState) (llrs : List ℚ)
    (syndrome : List Bool) (out0 : List Bool) (maxIter : Nat) (vsat : ℚ)
    (b : Bool) (out : List Bool) (hiter : 1 ≤ maxIter)
    (hres : decode_at_current_rate P st llrs syndrome out0 maxIter vsat
      = Except.ok (b, out)) :
    (b = true ↔ encode_at_current_rate st out = EncodeOutcome.ok syndrome) := by
  unfold decode_at_current_rate at hres
  split at hres
  · exact absurd hres (by simp)
  · split at hres
    · exact absurd hres (by simp)
    · have hok := Except.ok.inj hres
      obtain ⟨m, rfl⟩ : ∃ m, maxIter = m + 1 := ⟨maxIter - 1, by omega⟩
      have h := decodeLoop_succ_iff P st llrs syndrome vsat m
        (initMsgV st llrs) (initMsgC st) (listResize out0 llrs.length)
      rw [hok] at h
      exact h

/-- Claim C4 counterexample: with `max_num_iter = 0` on the 1 x 1 code, the
decoder returns `ok = false` and the output buffer `[1]` untouched, although the
syndrome of that buffer equals the given syndrome `[1]` — so a `false` return
does not imply a syndrome mismatch. -/
theorem claim4_cex :
    decode_at_current_rate idParams code11 [-1] [true] [true] 0 100
      = Except.ok (false, [true]) ∧
    encode_at_current_rate code11 [true] = EncodeOutcome.ok [true] := by
  exact ⟨rfl, rfl⟩

/-- Claim C4 witness: one iteration on the 1 x 1 code with LLR `-1` and syndrome
`[1]` converges to the hard decision `[1]`. -/
theorem claim4_witness :
    ((1 : Nat) ≤ 1 ∧ decode_at_current_rate idParams code11 [-1] [true] [] 1 100
        = Except.ok (true, [true])) ∧
    (true = true ↔ encode_at_current_rate code11 [true] = EncodeOutcome.ok [true]) := by
  have hres : decode_at_current_rate idParams code11 [-1] [true] [] 1 100
      = Except.ok (true, [true]) := by
    norm_num [decode_at_current_rate, decodeLoop, code11, idParams, initMsgV, initMsgC,
      listResize, check_node_update, var_node_update, hard_decision, saturate,
      saturateVal, anyNaN, syndromeSign, encode_at_current_rate, current_syndrome,
      mother_syndrome, encodeRow, xor_as_bools, List.range_succ]
  exact ⟨⟨le_refl 1, hres⟩,
    claim4_amended idParams code11 [-1] [true] [] 1 100 true [true] (le_refl 1) hres⟩

theorem colEntryRange_out_of_range (colptr : List Nat) (col : Nat)
    (h : colptr.length - 1 ≤ col) : colEntryRange colptr col = [] := by
  unfold colEntryRange
  have h1 : colptr.getD (col + 1) 0 = 0 := by
    rcases Nat.lt_or_ge (col + 1) colptr.length with hlt | hge
    · omega
    · exact List.getD_eq_default _ _ hge
  rw [h1]
  simp

/-- Claim C6: after a successful rate-adaptive construction from CSC data (with
duplicate-free column entries), and after every subsequent successful
`set_rate k` with `2 k ≤ M`, the adjacency tables are transposes of one another
(`j` in `pos_varn[i]` iff `i` in `pos_checkn[j]` for all `i < M_current`,
`j < N`) and every inner sequence of both tables — including combined rows — is
strictly increasing. -/
theorem claim6 (colptr row_idx rtc : List Nat) (k0 : Nat) (st : CodeState)
    (hcol : ∀ col, col < colptr.length - 1 →
        ((colEntryRange colptr col).map (fun j => row_idx.getD j 0)).Nodup)
    (h2k0 : 2 * k0 ≤ maxRowIdx row_idx + 1)
    (hmk : mkFromCSC colptr row_idx rtc k0 = some st) :
    AdjacencyInvariant st ∧
    ∀ k st2, 2 * k ≤ st.n_mother_rows → set_rate st k = some st2 →
      AdjacencyInvariant st2 := by
  have hcolall : ∀ col,
      ((colEntryRange colptr col).map (fun j => row_idx.getD j 0)).Nodup := by
    intro col
    rcases Nat.lt_or_ge col (colptr.length - 1) with hlt | hge
    · exact hcol col hlt
    · rw [colEntryRange_out_of_range colptr col hge]
      exact List.nodup_nil
  have hM0 : (compute_mother_pos_varn colptr row_idx).length = maxRowIdx row_idx + 1 :=
    compute_mother_pos_varn_length colptr row_idx
  have hrs0 := compute_mother_pos_varn_rows_sorted colptr row_idx hcolall
  unfold mkFromCSC at hmk
  split at hmk
  · exact absurd hmk (by simp)
  · split at hmk
    · exact absurd hmk (by simp)
    · have hmother : st.mother_pos_varn = compute_mother_pos_varn colptr row_idx ∧
          st.n_mother_rows = maxRowIdx row_idx + 1 := by
        unfold recompute_pos_vn_cn at hmk
        split at hmk
        · exact absurd hmk (by simp)
        · have h := Option.some.inj hmk
          rw [← h]
          exact ⟨rfl, rfl⟩
      constructor
      · exact recompute_invariant _ st k0 hM0 hrs0 h2k0 hmk
      · intro k st2 h2k hset
        refine recompute_invariant st st2 k ?_ ?_ h2k hset
        · rw [hmother.1, hmother.2]
          exact hM0
        · rw [hmother.1]
          exact hrs0

/-- Claim C6 witness: the 2 x 2 identity-matrix CSC data with combination list
`[0, 1]` and initial rate `k0 = 1` constructs successfully and satisfies the
invariant, as does every further successful `set_rate`. -/
theorem claim6_witness :
    ((∀ col, col < ([0, 1, 2] : List Nat).length - 1 →
        ((colEntryRange [0, 1, 2] col).map
          (fun j => ([0, 1] : List Nat).getD j 0)).Nodup) ∧
     2 * 1 ≤ maxRowIdx [0, 1] + 1 ∧
     mkFromCSC [0, 1, 2] [0, 1] [0, 1] 1
       = some { n_mother_rows := 2, n_cols := 2, mother_pos_varn := [[0], [1]],
                rows_to_combine := [0, 1], pos_checkn := [[0], [0]],
                pos_varn := [[0, 1]], n_ra_rows := 1 }) ∧
    (AdjacencyInvariant
        { n_mother_rows := 2, n_cols := 2, mother_pos_varn := [[0], [1]],
          rows_to_combine := [0, 1], pos_checkn := [[0], [0]],
          pos_varn := [[0, 1]], n_ra_rows := 1 } ∧
      ∀ k st2, 2 * k ≤ CodeState.n_mother_rows
          { n_mother_rows := 2, n_cols := 2, mother_pos_varn := [[0], [1]],
            rows_to_combine := [0, 1], pos_checkn := [[0], [0]],
            pos_varn := [[0, 1]], n_ra_rows := 1 } →
        set_rate { n_mother_rows := 2, n_cols := 2, mother_pos_varn := [[0], [1]],
                   rows_to_combine := [0, 1], pos_checkn := [[0], [0]],
                   pos_varn := [[0, 1]], n_ra_rows := 1 } k = some st2 →
        AdjacencyInvariant st2) :=
  ⟨⟨by decide, by decide, by decide⟩,
   claim6 [0, 1, 2] [0, 1] [0, 1] 1
     { n_mother_rows := 2, n_cols := 2, mother_pos_varn := [[0], [1]],
       rows_to_combine := [0, 1], pos_checkn := [[0], [0]],
       pos_varn := [[0, 1]], n_ra_rows := 1 }
     (by decide) (by decide) (by decide)⟩

/-- Claim C7: for a syndrome of length `L` with `M - K ≤ L ≤ M` (and `M` within
`std::size_t` range), when `L` differs from the current `n_ra_rows`,
`decode_infer_rate` first performs `set_rate (M - L)` — mutating the object to
rate-adaption state `k = M - L` with `M_current = L` — and then decodes at the
current rate on the mutated state; when `L` already equals `n_ra_rows` the state
is left unchanged and decoding proceeds directly. -/
theorem claim7 (P : BPParams) (st : CodeState) (llrs : List ℚ)
    (syndrome : List Bool) (out0 : List Bool) (maxIter : Nat) (vsat : ℚ)
    (hM64 : st.n_mother_rows < 2 ^ 64)
    (hL1 : st.n_mother_rows - st.rows_to_combine.length / 2 ≤ syndrome.length)
    (hL2 : syndrome.length ≤ st.n_mother_rows) :
    (syndrome.length ≠ st.n_ra_rows →
      ∃ st2, set_rate st (st.n_mother_rows - syndrome.length) = some st2 ∧
        st2.n_ra_rows = syndrome.length ∧
        decode_infer_rate P st llrs syndrome out0 maxIter vsat
          = (st2, decode_at_current_rate P st2 llrs syndrome out0 maxIter vsat)) ∧
    (syndrome.length = st.n_ra_rows →
      decode_infer_rate P st llrs syndrome out0 maxIter vsat
        = (st, decode_at_current_rate P st llrs syndrome out0 maxIter vsat)) := by
  have husub : usub64 st.n_mother_rows syndrome.length
      = st.n_mother_rows - syndrome.length := by
    unfold usub64
    have e1 : 2 ^ 64 + st.n_mother_rows - syndrome.length
        = 2 ^ 64 + (st.n_mother_rows - syndrome.length) := by omega
    rw [e1, Nat.add_mod_left, Nat.mod_eq_of_lt (by omega)]
  constructor
  · intro hne
    have hset : set_rate st (st.n_mother_rows - syndrome.length) = some
        { st with
          pos_varn := new_pos_varn st (st.n_mother_rows - syndrome.length)
          pos_checkn := recompute_pos_checkn st.n_cols
            (new_pos_varn st (st.n_mother_rows - syndrome.length))
          n_ra_rows := st.n_mother_rows
            - (st.n_mother_rows - syndrome.length) } := by
      unfold set_rate recompute_pos_vn_cn
      rw [if_neg (by omega)]
    refine ⟨_, hset, ?_, ?_⟩
    · show st.n_mother_rows - (st.n_mother_rows - syndrome.length) = syndrome.length
      omega
    · unfold decode_infer_rate
      rw [if_pos hne, husub, hset]
  · intro heq
    unfold decode_infer_rate
    rw [if_neg (fun hcon => hcon heq)]

/-- Claim C7 witness: on the 2 x 4 code (currently at `n_ra_rows = 2`) with a
length-1 syndrome, the rate is first set to `k = 1`. -/
theorem claim7_witness :
    (exampleCode1.n_mother_rows < 2 ^ 64 ∧
     exampleCode1.n_mother_rows - exampleCode1.rows_to_combine.length / 2
       ≤ ([false] : List Bool).length ∧
     ([false] : List Bool).length ≤ exampleCode1.n_mother_rows) ∧
    ((([false] : List Bool).length ≠ exampleCode1.n_ra_rows →
      ∃ st2, set_rate exampleCode1
            (exampleCode1.n_mother_rows - ([false] : List Bool).length) = some st2 ∧
        st2.n_ra_rows = ([false] : List Bool).length ∧
        decode_infer_rate idParams exampleCode1 [0, 0, 0, 0] [false] [] 1 100
          = (st2, decode_at_current_rate idParams st2 [0, 0, 0, 0] [false] [] 1 100)) ∧
    (([false] : List Bool).length = exampleCode1.n_ra_rows →
      decode_infer_rate idParams exampleCode1 [0, 0, 0, 0] [false] [] 1 100
        = (exampleCode1,
            decode_at_current_rate idParams exampleCode1 [0, 0, 0, 0] [false] [] 1 100))) :=
  ⟨⟨by decide, by decide, by decide⟩,
   claim7 idParams exampleCode1 [0, 0, 0, 0] [false] [] 1 100 (by decide) (by decide)
     (by decide)⟩

/-- Claim C8 (amended): on an input whose length differs from `N`,
`encode_no_ra` and `encode_with_ra` throw, but `encode_at_current_rate` does NOT
surface a hard error: it only emits a debug message and returns without writing
a syndrome (outcome `silentNoWrite`, never `ok`), leaving the output buffer
untouched. -/
theorem claim8_amended (st : CodeState) (x : List Bool) (L : Nat)
    (hx : x.length ≠ st.n_cols) :
    encode_no_ra st x = EncodeOutcome.threw ∧
    encode_with_ra st x L = EncodeOutcome.threw ∧
    encode_at_current_rate st x = EncodeOutcome.silentNoWrite ∧
    ∀ s, encode_at_current_rate st x ≠ EncodeOutcome.ok s := by
  refine ⟨?_, ?_, ?_, ?_⟩
  · unfold encode_no_ra
    rw [if_pos hx]
  · unfold encode_with_ra
    rw [if_pos hx]
  · unfold encode_at_current_rate
    rw [if_pos hx]
  · intro s
    unfold encode_at_current_rate
    rw [if_pos hx]
    simp

/-- Claim C8 counterexample: the empty input on the 2 x 4 code makes
`encode_no_ra` throw but `encode_at_current_rate` return silently — the latter
is not the hard error the claim asserts for all three encoders. -/
theorem claim8_cex :
    encode_at_current_rate exampleCode1 [] = EncodeOutcome.silentNoWrite ∧
    EncodeOutcome.silentNoWrite ≠ EncodeOutcome.threw ∧
    encode_no_ra exampleCode1 [] = EncodeOutcome.threw := by
  refine ⟨by decide, by decide, by decide⟩

/-- Claim C8 witness: the empty input (length 0, not 4) on the 2 x 4 code. -/
theorem claim8_witness :
    (([] : List Bool).length ≠ exampleCode1.n_cols) ∧
    (encode_no_ra exampleCode1 [] = EncodeOutcome.threw ∧
     encode_with_ra exampleCode1 [] 1 = EncodeOutcome.threw ∧
     encode_at_current_rate exampleCode1 [] = EncodeOutcome.silentNoWrite ∧
     ∀ s, encode_at_current_rate exampleCode1 [] ≠ EncodeOutcome.ok s) :=
  ⟨by decide, claim8_amended exampleCode1 [] 1 (by decide)⟩

/-- Claim C9: `set_rate` is idempotent — if `set_rate k` succeeds and produces
state `st2`, then `set_rate k` on `st2` succeeds and returns `st2` itself, so
the second call changes none of `pos_varn`, `pos_checkn` or the current row
count.  (The recomputation reads only the mother adjacency and the combination
list, neither of which `set_rate` modifies.) -/
theorem claim9 (st st2 : CodeState) (k : Nat) (hset : set_rate st k = some st2) :
    set_rate st2 k = some st2 := by
  unfold set_rate recompute_pos_vn_cn at hset ⊢
  split at hset
  · exact absurd hset (by simp)
  · next h1 =>
    have h := Option.some.inj hset
    rw [← h]
    rw [if_neg h1]
    rfl

/-- Claim C9 witness: `set_rate 1` on the 2 x 4 code, repeated. -/
theorem claim9_witness :
    set_rate exampleCode1 1
        = some { n_mother_rows := 2, n_cols := 4, mother_pos_varn := [[0, 1], [2, 3]],
                 rows_to_combine := [0, 1], pos_checkn := [[0], [0], [0], [0]],
                 pos_varn := [[0, 1, 2, 3]], n_ra_rows := 1 } ∧
    set_rate { n_mother_rows := 2, n_cols := 4, mother_pos_varn := [[0, 1], [2, 3]],
               rows_to_combine := [0, 1], pos_checkn := [[0], [0], [0], [0]],
               pos_varn := [[0, 1, 2, 3]], n_ra_rows := 1 } 1
      = some { n_mother_rows := 2, n_cols := 4, mother_pos_varn := [[0, 1], [2, 3]],
               rows_to_combine := [0, 1], pos_checkn := [[0], [0], [0], [0]],
               pos_varn := [[0, 1, 2, 3]], n_ra_rows := 1 } :=
  ⟨by decide,
   claim9 exampleCode1
     { n_mother_rows := 2, n_cols := 4, mother_pos_varn := [[0, 1], [2, 3]],
       rows_to_combine := [0, 1], pos_checkn := [[0], [0], [0], [0]],
       pos_varn := [[0, 1, 2, 3]], n_ra_rows := 1 } 1 (by decide)⟩

/-- Claim C10: the encoders and `decode_at_current_rate` are const member
functions — modelled as state-passing calls, each returns the receiver
unchanged, for every input, including inputs that make the call fail. -/
theorem claim10 (P : BPParams) (st : CodeState) (x : List Bool) (L : Nat)
    (llrs : List ℚ) (syndrome : List Bool) (out0 : List Bool) (maxIter : Nat)
    (vsat : ℚ) :
    (encode_no_ra_call st x).1 = st ∧
    (encode_with_ra_call st x L).1 = st ∧
    (encode_at_current_rate_call st x).1 = st ∧
    (decode_at_current_rate_call P st llrs syndrome out0 maxIter vsat).1 = st :=
  ⟨rfl, rfl, rfl, rfl⟩


end LDPC4QKD
